import Mathlib

/-!
Geohash codec and geohash trie (`main.go`)

A shallow embedding of the codec (`EncodeGeoHash`, `DecodeGeoHash`), of the
trie (`Insert`, `Search`, `Delete`, `RangeQuery`), of the index loader
(`loadDataInTrie`) and of `CalculateDistance` of `main.go`.

Modelling conventions

* A Go `string` is a sequence of bytes: `List Byte` with `Byte = Fin 256`.
* `float64` coordinates are modelled by exact rationals `ℚ`; rounding, NaN and
  infinities are outside the model.
* Go `int` counters (`bits`, `hash_value`, indices) are modelled by `Nat`/`Int`:
  `hash_value` is reset after five doublings and `bits` is bounded by five times
  the length of an allocated slice, so no 64-bit overflow can occur.
* A run-time panic (negative `make` length, index out of range) is `none`.
* A Go `map[byte]*TrieNode` is a finite partial map `Byte → Option TrieNode`;
  the code never stores a nil pointer in it.
* The functions of Go's `math` package are parameters of `CalculateDistance`,
  which is stated over an arbitrary field.
-/

namespace GeoHash

/-! ## Strings -/

/-- Go `byte` (`uint8`). -/
abbrev Byte := Fin 256

/-- The bytes of a Go string literal (its UTF-8 encoding). -/
def str (s : String) : List Byte :=
  (s.data.flatMap String.utf8EncodeChar).map (fun b => b.val)

/-- Go `utf8.RuneError`. -/
def RuneError : Nat := 0xFFFD

/-- Go `utf8.DecodeRuneInString`: the first rune of `s` and its width in bytes.
An invalid or truncated encoding yields `(RuneError, 1)`. -/
def DecodeRuneInString : List Byte → Nat × Nat
  | [] => (RuneError, 0)
  | s0 :: rest =>
    if s0.val < 0x80 then (s0.val, 1)
    else if s0.val < 0xC2 ∨ 0xF4 < s0.val then (RuneError, 1)
    else
      let sz : Nat := if s0.val < 0xE0 then 2 else if s0.val < 0xF0 then 3 else 4
      let lo : Nat := if s0.val = 0xE0 then 0xA0 else if s0.val = 0xF0 then 0x90 else 0x80
      let hi : Nat := if s0.val = 0xED then 0x9F else if s0.val = 0xF4 then 0x8F else 0xBF
      if rest.length + 1 < sz then (RuneError, 1)
      else
        match rest with
        | [] => (RuneError, 1)
        | s1 :: rest1 =>
          if s1.val < lo ∨ hi < s1.val then (RuneError, 1)
          else if sz ≤ 2 then (((s0.val &&& 0x1F) <<< 6) ||| (s1.val &&& 0x3F), 2)
          else
            match rest1 with
            | [] => (RuneError, 1)
            | s2 :: rest2 =>
              if s2.val < 0x80 ∨ 0xBF < s2.val then (RuneError, 1)
              else if sz ≤ 3 then
                (((s0.val &&& 0x0F) <<< 12) ||| ((s1.val &&& 0x3F) <<< 6) ||| (s2.val &&& 0x3F), 3)
              else
                match rest2 with
                | [] => (RuneError, 1)
                | s3 :: _ =>
                  if s3.val < 0x80 ∨ 0xBF < s3.val then (RuneError, 1)
                  else
                    (((s0.val &&& 0x07) <<< 18) ||| ((s1.val &&& 0x3F) <<< 12)
                      ||| ((s2.val &&& 0x3F) <<< 6) ||| (s3.val &&& 0x3F), 4)

/-- The runes visited by `for _, c := range s`, given that the next `skip`
bytes belong to a rune already produced. -/
def runesFrom : Nat → List Byte → List Nat
  | _, [] => []
  | 0, b :: rest =>
    (DecodeRuneInString (b :: rest)).1 :: runesFrom ((DecodeRuneInString (b :: rest)).2 - 1) rest
  | k + 1, _ :: rest => runesFrom k rest

/-- The runes visited by `for _, c := range s`. -/
def runes (s : List Byte) : List Nat := runesFrom 0 s

/-- Go conversion `byte(c)` of a rune: truncation to the low eight bits. -/
def byteOfRune (c : Nat) : Byte := ⟨c % 256, Nat.mod_lt _ (by decide)⟩

/-- Go `strings.IndexByte`: index of the first occurrence of `c`, or `-1`. -/
def IndexByte (s : List Byte) (c : Byte) : Int :=
  if c ∈ s then (s.indexOf c : Int) else -1

/-- Go `strings.HasPrefix s p`. -/
def HasPrefix (s p : List Byte) : Bool := p.isPrefixOf s

/-! ## Constants -/

def BASE_32 : List Byte := str "0123456789bcdefghjkmnpqrstuvwxyz"
def MAX_LATITUDE : ℚ := 90
def MIN_LATITUDE : ℚ := -90
def MAX_LONGITUDE : ℚ := 180
def MIN_LONGITUDE : ℚ := -180
def PRECISION : Int := 15

/-! ## Codec -/

/-- The local variables of `EncodeGeoHash` that the loops update. -/
structure EncodeState where
  bits : Nat
  hash_value : Nat
  lat_min : ℚ
  lat_max : ℚ
  lon_min : ℚ
  lon_max : ℚ

/-- One iteration of the inner loop of `EncodeGeoHash` (one bisection). -/
def encodeBit (latitude longitude : ℚ) (s : EncodeState) : EncodeState :=
  let bits := s.bits + 1
  if bits % 2 = 1 then
    let mid := (s.lon_min + s.lon_max) / 2
    if longitude > mid then
      { s with bits := bits, hash_value := (s.hash_value <<< 1) + 1, lon_min := mid }
    else
      { s with bits := bits, hash_value := s.hash_value <<< 1, lon_max := mid }
  else
    let mid := (s.lat_min + s.lat_max) / 2
    if latitude > mid then
      { s with bits := bits, hash_value := (s.hash_value <<< 1) + 1, lat_min := mid }
    else
      { s with bits := bits, hash_value := s.hash_value <<< 1, lat_max := mid }

/-- The inner loop `for j := 0; j < 5; j++`, with `n` iterations left. -/
def encodeBits (latitude longitude : ℚ) : Nat → EncodeState → EncodeState
  | 0, s => s
  | n + 1, s => encodeBits latitude longitude n (encodeBit latitude longitude s)

/-- The outer loop `for i := 0; i < precision; i++`, with `n` iterations left:
the bytes written to `geohash[i..]`, or `none` when `BASE_32[hash_value]` is
out of range. -/
def encodeChars (latitude longitude : ℚ) : Nat → EncodeState → Option (List Byte)
  | 0, _ => some []
  | n + 1, s =>
    (BASE_32[(encodeBits latitude longitude 5 s).hash_value]?).bind fun c =>
      (encodeChars latitude longitude n
        { encodeBits latitude longitude 5 s with hash_value := 0 }).map fun cs => c :: cs

/-- The initial values of the local variables of `EncodeGeoHash`. -/
def encodeInit : EncodeState :=
  { bits := 0, hash_value := 0,
    lat_min := MIN_LATITUDE, lat_max := MAX_LATITUDE,
    lon_min := MIN_LONGITUDE, lon_max := MAX_LONGITUDE }

/-- `EncodeGeoHash(latitude, longitude, precision)`; `none` is a panic
(`make` with a negative length, or an index out of range). -/
def EncodeGeoHash (latitude longitude : ℚ) (precision : Int) : Option (List Byte) :=
  if precision < 0 then none
  else encodeChars latitude longitude precision.toNat encodeInit

/-- The local variables of `DecodeGeoHash` that the loops update. -/
structure DecodeState where
  lat_min : ℚ
  lat_max : ℚ
  lon_min : ℚ
  lon_max : ℚ
  is_lon : Bool

/-- One iteration of the inner loop of `DecodeGeoHash`, for bit position `i`. -/
def decodeBit (idx : Int) (i : Nat) (s : DecodeState) : DecodeState :=
  let bit := Int.land (idx >>> i) 1
  if s.is_lon then
    let mid := (s.lon_min + s.lon_max) / 2
    if bit = 1 then { s with lon_min := mid, is_lon := !s.is_lon }
    else { s with lon_max := mid, is_lon := !s.is_lon }
  else
    let mid := (s.lat_min + s.lat_max) / 2
    if bit = 1 then { s with lat_min := mid, is_lon := !s.is_lon }
    else { s with lat_max := mid, is_lon := !s.is_lon }

/-- The body of the outer loop of `DecodeGeoHash` for the rune `c`. -/
def decodeChar (s : DecodeState) (c : Nat) : DecodeState :=
  let idx := IndexByte BASE_32 (byteOfRune c)
  [4, 3, 2, 1, 0].foldl (fun st i => decodeBit idx i st) s

/-- The initial values of the local variables of `DecodeGeoHash`. -/
def decodeInit : DecodeState :=
  { lat_min := MIN_LATITUDE, lat_max := MAX_LATITUDE,
    lon_min := MIN_LONGITUDE, lon_max := MAX_LONGITUDE, is_lon := true }

/-- The outer loop of `DecodeGeoHash` over the runes `rs` followed by the
return statement. -/
def decodeRunes (rs : List Nat) : ℚ × ℚ :=
  let s := rs.foldl decodeChar decodeInit
  ((s.lat_min + s.lat_max) / 2, (s.lon_min + s.lon_max) / 2)

/-- `DecodeGeoHash(geohash)`: the pair `(latitude, longitude)`. -/
def DecodeGeoHash (geohash : List Byte) : ℚ × ℚ :=
  decodeRunes (runes geohash)

/-- The local variables of `EncodeGeoHash` after `n` more iterations of the
outer loop. -/
def encodeState (latitude longitude : ℚ) : Nat → EncodeState → EncodeState
  | 0, s => s
  | n + 1, s =>
    encodeState latitude longitude n { encodeBits latitude longitude 5 s with hash_value := 0 }

/-- The bounds of `DecodeGeoHash` agree with those of `EncodeGeoHash`, and the
next bisection is on the same axis. -/
def SameCell (e : EncodeState) (d : DecodeState) : Prop :=
  d.lat_min = e.lat_min ∧ d.lat_max = e.lat_max ∧ d.lon_min = e.lon_min ∧
    d.lon_max = e.lon_max ∧ d.is_lon = decide (e.bits % 2 = 0)

/-- The bounds of `EncodeGeoHash` enclose the point, and their widths are those
of the cell after `e.bits` bisections. -/
def InCell (lat lon : ℚ) (e : EncodeState) : Prop :=
  e.lon_min ≤ lon ∧ lon ≤ e.lon_max ∧ e.lat_min ≤ lat ∧ lat ≤ e.lat_max ∧
    e.lon_max - e.lon_min = 360 / 2 ^ ((e.bits + 1) / 2) ∧
    e.lat_max - e.lat_min = 180 / 2 ^ (e.bits / 2)

/-! ## Trie -/

/-- Go `TrieNode`: the `children` map and the `isEnd` flag. -/
inductive TrieNode where
  | mk (children : Byte → Option TrieNode) (isEnd : Bool)

/-- Field `children`. -/
def TrieNode.children : TrieNode → Byte → Option TrieNode
  | .mk c _ => c

/-- Field `isEnd`. -/
def TrieNode.isEnd : TrieNode → Bool
  | .mk _ e => e

/-- Go `GeoHashTrie`. -/
structure GeoHashTrie where
  root : TrieNode

/-- Map assignment `m[c] = v`. -/
def setKey (m : Byte → Option TrieNode) (c : Byte) (v : TrieNode) : Byte → Option TrieNode :=
  fun b => if b = c then some v else m b

/-- Builtin `delete(m, c)`. -/
def deleteKey (m : Byte → Option TrieNode) (c : Byte) : Byte → Option TrieNode :=
  fun b => if b = c then none else m b

/-- Builtin `len(m)` of a map: the number of keys. -/
def len (m : Byte → Option TrieNode) : Nat :=
  ((List.finRange 256).filter fun b => (m b).isSome).length

/-- The literal `&TrieNode{children: make(map[byte]*TrieNode), isEnd: false}`. -/
def emptyNode : TrieNode := .mk (fun _ => none) false

/-- `NewGeoHashTrie()`. -/
def NewGeoHashTrie : GeoHashTrie := ⟨emptyNode⟩

/-- The loop of `Insert` standing at `node` with the bytes `geohash[i..]` left;
the result is the updated node. -/
def insertFrom : TrieNode → List Byte → TrieNode
  | node, [] => .mk node.children true
  | node, c :: rest =>
    match node.children c with
    | none => .mk (setKey node.children c (insertFrom emptyNode rest)) node.isEnd
    | some child => .mk (setKey node.children c (insertFrom child rest)) node.isEnd

/-- `ght.Insert(geohash)`: the state of the trie after the call. -/
def GeoHashTrie.Insert (ght : GeoHashTrie) (geohash : List Byte) : GeoHashTrie :=
  ⟨insertFrom ght.root geohash⟩

/-- The loop of `Search` standing at `node` with the bytes `geohash[i..]` left. -/
def searchFrom : TrieNode → List Byte → Bool
  | node, [] => node.isEnd
  | node, c :: rest =>
    match node.children c with
    | none => false
    | some child => searchFrom child rest

/-- `ght.Search(geohash)`. -/
def GeoHashTrie.Search (ght : GeoHashTrie) (geohash : List Byte) : Bool :=
  searchFrom ght.root geohash

/-- `ght.deleteHelper(node, geohash, depth)` for a non-nil `node`, the second
argument being `geohash[depth..]`: the updated node and the returned flag. -/
def deleteHelper : TrieNode → List Byte → TrieNode × Bool
  | node, [] =>
    if !node.isEnd then (node, false)
    else (.mk node.children false, len node.children == 0)
  | node, c :: rest =>
    match node.children c with
    | some childNode =>
      let r := deleteHelper childNode rest
      if r.2 then
        (.mk (deleteKey node.children c) node.isEnd,
          len (deleteKey node.children c) == 0 && !node.isEnd)
      else (.mk (setKey node.children c r.1) node.isEnd, false)
    | none => (node, false)

/-- `ght.Delete(geohash)`: the state of the trie after the call and the
returned boolean. -/
def GeoHashTrie.Delete (ght : GeoHashTrie) (geohash : List Byte) : GeoHashTrie × Bool :=
  (⟨(deleteHelper ght.root geohash).1⟩, (deleteHelper ght.root geohash).2)

/-- Go conversion `string(ch)` of a byte: the UTF-8 encoding of the code point
`ch`, two bytes long when `ch ≥ 0x80`. -/
def stringOfByte (ch : Byte) : List Byte :=
  if ch.val < 0x80 then [ch]
  else [⟨0xC0 ||| (ch.val >>> 6), by
          have h := ch.isLt
          have h2 : ch.val >>> 6 < 4 := by rw [Nat.shiftRight_eq_div_pow]; omega
          have h3 : 0xC0 ||| (ch.val >>> 6) < 2 ^ 8 := Nat.or_lt_two_pow (by decide) (by omega)
          simpa using h3⟩,
        ⟨0x80 ||| (ch.val &&& 0x3F), by
          have h2 : ch.val &&& 0x3F < 2 ^ 8 := Nat.and_lt_two_pow _ (by decide)
          have h3 : 0x80 ||| (ch.val &&& 0x3F) < 2 ^ 8 := Nat.or_lt_two_pow (by decide) h2
          simpa using h3⟩]

/-- `ght.commonPrefix(a, b)`. -/
def commonPrefix : List Byte → List Byte → List Byte
  | x :: a, y :: b => if x = y then x :: commonPrefix a b else []
  | _, _ => []

mutual
/-- `ght.collectGeohashes(node, prefix, current)`. Go visits the keys of
`node.children` in an unspecified order; the model visits them in increasing
byte order, so only the contents of the result are meaningful. -/
def collectGeohashes : TrieNode → List Byte → List Byte → List (List Byte)
  | .mk children isEnd, pfx, current =>
    (if isEnd && HasPrefix current pfx then [current] else []) ++
      (List.finRange 256).flatMap fun ch =>
        collectChild (children ch) pfx (current ++ stringOfByte ch)
/-- The body of the `range node.children` loop for a key that is present,
`newCurrent` being `current + string(ch)`. -/
def collectChild : Option TrieNode → List Byte → List Byte → List (List Byte)
  | none, _, _ => []
  | some child, pfx, newCurrent =>
    if HasPrefix pfx newCurrent || HasPrefix newCurrent pfx then
      collectGeohashes child pfx newCurrent
    else []
end

/-- `ght.RangeQuery(sw, ne)`. -/
def GeoHashTrie.RangeQuery (ght : GeoHashTrie) (sw ne : List Byte) : List (List Byte) :=
  collectGeohashes ght.root (commonPrefix sw ne) []

mutual
/-- The number of `TrieNode` values reachable from a node, itself included. -/
def nodeCount : TrieNode → Nat
  | .mk children _ => 1 + ((List.finRange 256).map fun ch => childCount (children ch)).sum
/-- The number of nodes below a map entry. -/
def childCount : Option TrieNode → Nat
  | none => 0
  | some child => nodeCount child
end

/-- The tries reachable from `NewGeoHashTrie()` by `Insert` and `Delete` calls. -/
inductive Reachable : GeoHashTrie → Prop where
  | new : Reachable NewGeoHashTrie
  | insert (t : GeoHashTrie) (g : List Byte) : Reachable t → Reachable (t.Insert g)
  | delete (t : GeoHashTrie) (g : List Byte) : Reachable t → Reachable (t.Delete g).1

/-- The node reached from `node` along `path`, if every byte has a child. -/
def walk : TrieNode → List Byte → Option TrieNode
  | node, [] => some node
  | node, c :: rest =>
    match node.children c with
    | none => none
    | some child => walk child rest

/-- A node that is end-marked or has at least one child. -/
def Live (n : TrieNode) : Prop := n.isEnd = true ∨ ∃ b, n.children b ≠ none

/-- Every node strictly below `n` is end-marked or has at least one child. -/
def NoDangling (n : TrieNode) : Prop :=
  ∀ (path : List Byte) (m : TrieNode), path ≠ [] → walk n path = some m → Live m

/-! ## Auxiliary notions for the codec -/

/-- The point lies strictly inside the bounds of `DecodeGeoHash`. -/
def StrictIn (lat lon : ℚ) (d : DecodeState) : Prop :=
  d.lon_min < lon ∧ lon < d.lon_max ∧ d.lat_min < lat ∧ lat < d.lat_max

/-- The bounds of `DecodeGeoHash` are not degenerate. -/
def Wide (d : DecodeState) : Prop :=
  d.lon_min < d.lon_max ∧ d.lat_min < d.lat_max

/-! ## Auxiliary notions for the trie -/

mutual
/-- The paths from a node to every node reachable from it, itself included
(the empty path). -/
def nodePaths : TrieNode → List (List Byte)
  | .mk children _ =>
    [] :: (List.finRange 256).flatMap fun ch => (childPaths (children ch)).map fun p => ch :: p
/-- The paths below a map entry. -/
def childPaths : Option TrieNode → List (List Byte)
  | none => []
  | some child => nodePaths child
end

/-- Every key byte on every path of the trie is an ASCII byte. -/
def AsciiTrie (n : TrieNode) : Prop :=
  ∀ (path : List Byte) (m : TrieNode), walk n path = some m → ∀ b ∈ path, b.val < 0x80

/-- The tries obtained from `NewGeoHashTrie()` by `Insert` calls on geohashes
(strings over the alphabet `BASE_32`) and by `Delete` calls. -/
inductive ReachableOnGeohashes : GeoHashTrie → Prop where
  | new : ReachableOnGeohashes NewGeoHashTrie
  | insert (t : GeoHashTrie) (g : List Byte) :
      (∀ b ∈ g, b ∈ BASE_32) → ReachableOnGeohashes t → ReachableOnGeohashes (t.Insert g)
  | delete (t : GeoHashTrie) (g : List Byte) :
      ReachableOnGeohashes t → ReachableOnGeohashes (t.Delete g).1

/-! ## Index state and loading -/

/-- Go `Location`. -/
structure Location where
  Name : List Byte
  Latitude : ℚ
  Longitude : ℚ
  Distance : ℚ

/-- Go `LocationData`. -/
structure LocationData where
  Lat : ℚ
  Lon : ℚ
  PlaceData : List Location

/-- The package-level variables `trie` (nil until the first load),
`centralLat`, `centralLon` and `geohashAndPlaceMap`. -/
structure Globals where
  trie : Option GeoHashTrie
  centralLat : ℚ
  centralLon : ℚ
  geohashAndPlaceMap : List Byte → Option (List Byte)

/-- The package-level variables at program start. -/
def initGlobals : Globals :=
  { trie := none, centralLat := 0, centralLon := 0, geohashAndPlaceMap := fun _ => none }

/-- Map assignment `m[k] = v` on `map[string]string`. -/
def setName (m : List Byte → Option (List Byte)) (k v : List Byte) :
    List Byte → Option (List Byte) :=
  fun x => if x = k then some v else m x

/-- The loop of `loadDataInTrie` over the places that are left, from the trie
and the name map built so far; `none` is a panic of `EncodeGeoHash`. -/
def loadPlaces : List Location → GeoHashTrie → (List Byte → Option (List Byte)) →
    Option (GeoHashTrie × (List Byte → Option (List Byte)))
  | [], t, m => some (t, m)
  | place :: rest, t, m =>
    (EncodeGeoHash place.Latitude place.Longitude PRECISION).bind fun geohash =>
      loadPlaces rest (t.Insert geohash) (setName m geohash place.Name)

/-- `loadDataInTrie(jsonData)`: the package-level variables after the call. -/
def loadDataInTrie (st : Globals) (jsonData : LocationData) : Option Globals :=
  (loadPlaces jsonData.PlaceData NewGeoHashTrie st.geohashAndPlaceMap).map fun r =>
    { trie := some r.1, centralLat := jsonData.Lat, centralLon := jsonData.Lon,
      geohashAndPlaceMap := r.2 }

/-! ## Distance -/

/-- The members of Go's `math` package that the program uses, over the number
type `F`. -/
structure Math (F : Type) where
  Pi : F
  Sin : F → F
  Cos : F → F
  Sqrt : F → F
  Atan2 : F → F → F

/-- `CalculateDistance(lat1, lon1, lat2, lon2)`. -/
def CalculateDistance {F : Type} [Field F] (math : Math F) (lat1 lon1 lat2 lon2 : F) : F :=
  let R : F := 6371
  let dLat := (lat2 - lat1) * (math.Pi / 180)
  let dLon := (lon2 - lon1) * (math.Pi / 180)
  let a := math.Sin (dLat / 2) * math.Sin (dLat / 2) +
    math.Cos (lat1 * math.Pi / 180) * math.Cos (lat2 * math.Pi / 180) *
      math.Sin (dLon / 2) * math.Sin (dLon / 2)
  let c := 2 * math.Atan2 (math.Sqrt a) (math.Sqrt (1 - a))
  R * c

/-! ## The nearby query

`FindNearby` computes the corners of its bounding box with `math.Cos`, so over
the real numbers the corners are not rational. The encoder is therefore stated
a second time, word for word, over an arbitrary ordered field `F`; on rational
coordinates it is `EncodeGeoHash` (`encodeGeoHash_cast`). The result of
`DecodeGeoHash` is rational and is read in `F`. -/

/-- The local variables of `EncodeGeoHash` that the loops update, over `F`. -/
structure InField.EncodeState (F : Type) where
  bits : Nat
  hash_value : Nat
  lat_min : F
  lat_max : F
  lon_min : F
  lon_max : F

/-- One iteration of the inner loop of `EncodeGeoHash`, over `F`. -/
def InField.encodeBit {F : Type} [LinearOrderedField F] (latitude longitude : F)
    (s : InField.EncodeState F) : InField.EncodeState F :=
  let bits := s.bits + 1
  if bits % 2 = 1 then
    let mid := (s.lon_min + s.lon_max) / 2
    if longitude > mid then
      { s with bits := bits, hash_value := (s.hash_value <<< 1) + 1, lon_min := mid }
    else
      { s with bits := bits, hash_value := s.hash_value <<< 1, lon_max := mid }
  else
    let mid := (s.lat_min + s.lat_max) / 2
    if latitude > mid then
      { s with bits := bits, hash_value := (s.hash_value <<< 1) + 1, lat_min := mid }
    else
      { s with bits := bits, hash_value := s.hash_value <<< 1, lat_max := mid }

/-- The inner loop of `EncodeGeoHash` with `n` iterations left, over `F`. -/
def InField.encodeBits {F : Type} [LinearOrderedField F] (latitude longitude : F) :
    Nat → InField.EncodeState F → InField.EncodeState F
  | 0, s => s
  | n + 1, s => InField.encodeBits latitude longitude n (InField.encodeBit latitude longitude s)

/-- The outer loop of `EncodeGeoHash` with `n` iterations left, over `F`. -/
def InField.encodeChars {F : Type} [LinearOrderedField F] (latitude longitude : F) :
    Nat → InField.EncodeState F → Option (List Byte)
  | 0, _ => some []
  | n + 1, s =>
    (BASE_32[(InField.encodeBits latitude longitude 5 s).hash_value]?).bind fun c =>
      (InField.encodeChars latitude longitude n
        { InField.encodeBits latitude longitude 5 s with hash_value := 0 }).map
        fun cs => c :: cs

/-- The initial values of the local variables of `EncodeGeoHash`, over `F`. -/
def InField.encodeInit {F : Type} [LinearOrderedField F] : InField.EncodeState F :=
  { bits := 0, hash_value := 0,
    lat_min := ((MIN_LATITUDE : ℚ) : F), lat_max := ((MAX_LATITUDE : ℚ) : F),
    lon_min := ((MIN_LONGITUDE : ℚ) : F), lon_max := ((MAX_LONGITUDE : ℚ) : F) }

/-- `EncodeGeoHash(latitude, longitude, precision)` over `F`. -/
def InField.EncodeGeoHash {F : Type} [LinearOrderedField F] (latitude longitude : F)
    (precision : Int) : Option (List Byte) :=
  if precision < 0 then none
  else InField.encodeChars latitude longitude precision.toNat InField.encodeInit

/-- A rational encoder state read in `F`. -/
def castState {F : Type} [LinearOrderedField F] (s : EncodeState) :
    InField.EncodeState F :=
  { bits := s.bits, hash_value := s.hash_value,
    lat_min := (s.lat_min : F), lat_max := (s.lat_max : F),
    lon_min := (s.lon_min : F), lon_max := (s.lon_max : F) }

/-- `ght.FindNearby(geohash, distance)`; `none` is a panic of `EncodeGeoHash`.
Where the cosine is zero the field division gives 0 and float64 gives an
infinity; the results below assume a positive cosine. -/
def GeoHashTrie.FindNearby {F : Type} [LinearOrderedField F] (math : Math F)
    (ght : GeoHashTrie) (geohash : List Byte) (distance : F) : Option (List (List Byte)) :=
  let lat : F := ((DecodeGeoHash geohash).1 : ℚ)
  let lon : F := ((DecodeGeoHash geohash).2 : ℚ)
  let precision : Int := geohash.length
  let latDelta := distance / 111
  let lonDelta := distance / (111 * math.Cos (lat * math.Pi / 180))
  let minLat := lat - latDelta
  let maxLat := lat + latDelta
  let minLon := lon - lonDelta
  let maxLon := lon + lonDelta
  (InField.EncodeGeoHash minLat minLon precision).bind fun sw =>
    (InField.EncodeGeoHash maxLat maxLon precision).bind fun ne =>
      some (ght.RangeQuery sw ne)

/-- Go `Location` as `FindNearByHandler` fills it, the numbers being in `F`. -/
structure InField.Location (F : Type) where
  Name : List Byte
  Latitude : F
  Longitude : F
  Distance : F

/-- The body of the loop of `FindNearByHandler` for the candidate `geohash`:
the location that is appended, if any. A geohash without a name gets the empty
name. -/
def nearbyLocation {F : Type} [LinearOrderedField F] (math : Math F) (st : Globals)
    (lati long radius : F) (geohash : List Byte) : Option (InField.Location F) :=
  let dlat : F := ((DecodeGeoHash geohash).1 : ℚ)
  let dlon : F := ((DecodeGeoHash geohash).2 : ℚ)
  let distance := CalculateDistance math lati long dlat dlon
  if distance ≤ radius then
    some { Name := (st.geohashAndPlaceMap geohash).getD [], Latitude := dlat,
           Longitude := dlon, Distance := distance }
  else none

/-- `FindNearByHandler` from the parsed query parameters `lat`, `lon` and
`radius` on: the locations that are written to the response. `none` is a panic
(the package variable `trie` is nil before the first load). -/
def FindNearByHandler {F : Type} [LinearOrderedField F] (math : Math F) (st : Globals)
    (lati long radius : F) : Option (List (InField.Location F)) :=
  (InField.EncodeGeoHash lati long PRECISION).bind fun geohash =>
    st.trie.bind fun trie =>
      (trie.FindNearby math geohash radius).map fun places =>
        places.filterMap (nearbyLocation math st lati long radius)

/-! ## Codec: the accumulator and totality of `EncodeGeoHash` -/

theorem BASE_32_length : BASE_32.length = 32 := by decide

theorem encodeBit_hash_le (lat lon : ℚ) (s : EncodeState) :
    (encodeBit lat lon s).hash_value ≤ 2 * s.hash_value + 1 := by
  unfold encodeBit
  simp only [Nat.shiftLeft_eq]
  split_ifs <;> simp <;> omega

theorem encodeBits_hash_lt (lat lon : ℚ) (n : Nat) (s : EncodeState) :
    (encodeBits lat lon n s).hash_value < 2 ^ n * (s.hash_value + 1) := by
  induction n generalizing s with
  | zero => simp [encodeBits]
  | succ n ih =>
    have h1 := ih (encodeBit lat lon s)
    have h2 := encodeBit_hash_le lat lon s
    simp only [encodeBits]
    calc (encodeBits lat lon n (encodeBit lat lon s)).hash_value
        < 2 ^ n * ((encodeBit lat lon s).hash_value + 1) := h1
      _ ≤ 2 ^ n * (2 * s.hash_value + 1 + 1) := Nat.mul_le_mul_left _ (by omega)
      _ = 2 ^ (n + 1) * (s.hash_value + 1) := by ring

theorem encodeBits_five_lt (lat lon : ℚ) (s : EncodeState) (h : s.hash_value = 0) :
    (encodeBits lat lon 5 s).hash_value < 32 := by
  have := encodeBits_hash_lt lat lon 5 s
  rw [h] at this
  simpa using this

theorem encodeChars_succ (lat lon : ℚ) (n : Nat) (s : EncodeState) :
    encodeChars lat lon (n + 1) s =
      (BASE_32[(encodeBits lat lon 5 s).hash_value]?).bind fun c =>
        (encodeChars lat lon n { encodeBits lat lon 5 s with hash_value := 0 }).map
          fun cs => c :: cs := by
  rw [encodeChars]

/-- From a state with a cleared accumulator the outer loop never indexes out of
range, writes exactly `n` bytes, and its first `m` bytes are what a run of `m`
iterations writes. -/
theorem encodeChars_take (lat lon : ℚ) (n : Nat) (s : EncodeState) (h : s.hash_value = 0) :
    ∃ cs, encodeChars lat lon n s = some cs ∧ cs.length = n ∧
      ∀ m, m ≤ n → encodeChars lat lon m s = some (cs.take m) := by
  induction n generalizing s with
  | zero =>
    refine ⟨[], rfl, rfl, ?_⟩
    intro m hm
    have : m = 0 := by omega
    subst this; rfl
  | succ n ih =>
    have hlt := encodeBits_five_lt lat lon s h
    have hlt2 : (encodeBits lat lon 5 s).hash_value < BASE_32.length := by
      rw [BASE_32_length]; exact hlt
    obtain ⟨c, hget⟩ : ∃ c, BASE_32[(encodeBits lat lon 5 s).hash_value]? = some c :=
      ⟨_, List.getElem?_eq_getElem hlt2⟩
    obtain ⟨cs, hcs, hlen, htake⟩ :=
      ih { encodeBits lat lon 5 s with hash_value := 0 } rfl
    refine ⟨c :: cs, ?_, by simp [hlen], ?_⟩
    · rw [encodeChars_succ, hget, Option.some_bind, hcs, Option.map_some']
    · intro m hm
      cases m with
      | zero => rfl
      | succ m =>
        rw [encodeChars_succ, hget, Option.some_bind, htake m (by omega), Option.map_some',
          List.take_succ_cons]

/-! ## Codec: `DecodeGeoHash` has no failure outcome -/

theorem indexByte_z : IndexByte BASE_32 (byteOfRune 122) = 31 := by decide!

theorem land_shift_neg_one : ∀ i : Fin 5, Int.land ((-1 : Int) >>> i.val) 1 = 1 := by decide!

theorem land_shift_31 : ∀ i : Fin 5, Int.land ((31 : Int) >>> i.val) 1 = 1 := by decide!

theorem decodeBit_neg_one (i : Nat) (hi : i < 5) (s : DecodeState) :
    decodeBit (-1) i s = decodeBit 31 i s := by
  have h1 := land_shift_neg_one ⟨i, hi⟩
  have h2 := land_shift_31 ⟨i, hi⟩
  simp only at h1 h2
  simp only [decodeBit, h1, h2]

/-- A rune whose byte is outside the alphabet is decoded like `z`. -/
theorem decodeChar_invalid (s : DecodeState) (c : Nat) (h : byteOfRune c ∉ BASE_32) :
    decodeChar s c = decodeChar s 122 := by
  have hidx : IndexByte BASE_32 (byteOfRune c) = -1 := by
    simp only [IndexByte, if_neg h]
  simp only [decodeChar, hidx, indexByte_z, List.foldl_cons, List.foldl_nil]
  rw [decodeBit_neg_one 4 (by decide), decodeBit_neg_one 3 (by decide),
    decodeBit_neg_one 2 (by decide), decodeBit_neg_one 1 (by decide),
    decodeBit_neg_one 0 (by decide)]

theorem foldl_decodeChar_map (rs : List Nat) :
    ∀ s : DecodeState,
      (rs.map fun c => if byteOfRune c ∈ BASE_32 then c else 122).foldl decodeChar s =
        rs.foldl decodeChar s := by
  induction rs with
  | nil => intro s; rfl
  | cons c rs ih =>
    intro s
    rw [List.map_cons, List.foldl_cons, List.foldl_cons, ih]
    by_cases h : byteOfRune c ∈ BASE_32
    · rw [if_pos h]
    · rw [if_neg h, decodeChar_invalid s c h]

/-! ## Codec: the bits of the accumulator -/

theorem encodeBits_succ (lat lon : ℚ) (n : Nat) (s : EncodeState) :
    encodeBits lat lon (n + 1) s = encodeBits lat lon n (encodeBit lat lon s) := by
  rw [encodeBits]

theorem encodeBit_hash_div (lat lon : ℚ) (s : EncodeState) :
    (encodeBit lat lon s).hash_value / 2 = s.hash_value := by
  unfold encodeBit
  simp only [Nat.shiftLeft_eq]
  split_ifs <;> simp <;> omega

theorem encodeBits_hash_div (lat lon : ℚ) (n : Nat) :
    ∀ s : EncodeState, (encodeBits lat lon n s).hash_value / 2 ^ n = s.hash_value := by
  induction n with
  | zero => intro s; simp [encodeBits]
  | succ n ih =>
    intro s
    rw [encodeBits_succ, pow_succ, ← Nat.div_div_eq_div_mul, ih, encodeBit_hash_div]

theorem encodeBit_bits (lat lon : ℚ) (s : EncodeState) :
    (encodeBit lat lon s).bits = s.bits + 1 := by
  unfold encodeBit
  simp only []
  split_ifs <;> rfl

theorem encodeBits_bits (lat lon : ℚ) (n : Nat) :
    ∀ s : EncodeState, (encodeBits lat lon n s).bits = s.bits + n := by
  induction n with
  | zero => intro s; rfl
  | succ n ih => intro s; rw [encodeBits_succ, ih, encodeBit_bits]; omega

theorem encodeState_succ (lat lon : ℚ) (n : Nat) (s : EncodeState) :
    encodeState lat lon (n + 1) s =
      encodeState lat lon n { encodeBits lat lon 5 s with hash_value := 0 } := by
  rw [encodeState]

theorem encodeState_bits (lat lon : ℚ) (n : Nat) :
    ∀ s : EncodeState, (encodeState lat lon n s).bits = s.bits + 5 * n := by
  induction n with
  | zero => intro s; rfl
  | succ n ih =>
    intro s
    rw [encodeState_succ, ih]
    simp only [encodeBits_bits]
    omega

/-- Bit `i` of a non-negative index, as `DecodeGeoHash` extracts it. -/
theorem land_shift_nat (h i : Nat) :
    Int.land ((h : Int) >>> i) 1 = ((h / 2 ^ i % 2 : Nat) : Int) := by
  have h1 : ((h : Int) >>> i) = ((h >>> i : Nat) : Int) := rfl
  have h2 : Int.land ((h >>> i : Nat) : Int) 1 = (((h >>> i) &&& 1 : Nat) : Int) := rfl
  rw [h1, h2, Nat.and_one_is_mod, Nat.shiftRight_eq_div_pow]

/-! ## Codec: `DecodeGeoHash` retraces the cells of `EncodeGeoHash` -/

theorem sameCell_step (lat lon : ℚ) (e : EncodeState) (d : DecodeState) (idx : Int) (i : Nat)
    (hm : SameCell e d)
    (hb : Int.land (idx >>> i) 1 = (((encodeBit lat lon e).hash_value % 2 : Nat) : Int)) :
    SameCell (encodeBit lat lon e) (decodeBit idx i d) := by
  obtain ⟨h1, h2, h3, h4, h5⟩ := hm
  unfold encodeBit at hb ⊢
  unfold decodeBit
  simp only [Nat.shiftLeft_eq, pow_one] at hb ⊢
  by_cases hpar : (e.bits + 1) % 2 = 1
  · have hl : d.is_lon = true := by rw [h5]; simp; omega
    simp only [hpar, if_true, hl] at hb ⊢
    by_cases hc : lon > (e.lon_min + e.lon_max) / 2
    · simp only [hc, if_true] at hb ⊢
      have hb2 : Int.land (idx >>> i) 1 = 1 := by rw [hb]; simp [Nat.add_mod]
      simp only [hb2, if_true, SameCell, h1, h2, h3, h4]
      simp; omega
    · simp only [hc, if_false] at hb ⊢
      have hb2 : Int.land (idx >>> i) 1 ≠ 1 := by rw [hb]; simp
      simp only [hb2, if_false, SameCell, h1, h2, h3, h4]
      simp; omega
  · have hl : d.is_lon = false := by rw [h5]; simp; omega
    simp only [hpar, if_false, hl] at hb ⊢
    by_cases hc : lat > (e.lat_min + e.lat_max) / 2
    · simp only [hc, if_true] at hb ⊢
      have hb2 : Int.land (idx >>> i) 1 = 1 := by rw [hb]; simp [Nat.add_mod]
      simp only [hb2, if_true, SameCell, h1, h2, h3, h4]
      simp; omega
    · simp only [hc, if_false] at hb ⊢
      have hb2 : Int.land (idx >>> i) 1 ≠ 1 := by rw [hb]; simp
      simp only [hb2, if_false, SameCell, h1, h2, h3, h4]
      simp; omega

/-- Reading the accumulator of `n` bisections from its top bit down retraces
those bisections. -/
theorem sameCell_bits (lat lon : ℚ) (n : Nat) :
    ∀ (e : EncodeState) (d : DecodeState), SameCell e d →
      SameCell (encodeBits lat lon n e)
        ((List.range n).reverse.foldl
          (fun st i => decodeBit ((encodeBits lat lon n e).hash_value : Int) i st) d) := by
  induction n with
  | zero => intro e d h; exact h
  | succ n ih =>
    intro e d h
    rw [List.range_succ, List.reverse_append, List.reverse_singleton, List.singleton_append,
      List.foldl_cons, encodeBits_succ]
    apply ih
    apply sameCell_step lat lon e d _ n h
    rw [land_shift_nat, encodeBits_hash_div]

theorem base32_index :
    ∀ h : Fin 32, IndexByte BASE_32 (byteOfRune (BASE_32.getD h.val 0).val) = (h.val : Int) ∧
      (BASE_32.getD h.val 0).val < 0x80 := by
  decide!

theorem base32_getElem (h : Nat) (c : Byte) (hc : BASE_32[h]? = some c) :
    IndexByte BASE_32 (byteOfRune c.val) = (h : Int) ∧ c.val < 0x80 := by
  have hlt : h < 32 := by
    have := (List.getElem?_eq_some_iff.1 hc).1
    rwa [BASE_32_length] at this
  have h1 := base32_index ⟨h, hlt⟩
  simp only [List.getD_eq_getElem?_getD, hc, Option.getD_some] at h1
  exact h1

theorem runes_cons_ascii (c : Byte) (cs : List Byte) (h : c.val < 0x80) :
    runes (c :: cs) = c.val :: runes cs := by
  simp [runes, runesFrom, DecodeRuneInString, h]

theorem encodeChars_eq_some (lat lon : ℚ) (n : Nat) (s : EncodeState) (cs : List Byte)
    (h : encodeChars lat lon (n + 1) s = some cs) :
    ∃ c cs1, BASE_32[(encodeBits lat lon 5 s).hash_value]? = some c ∧
      encodeChars lat lon n { encodeBits lat lon 5 s with hash_value := 0 } = some cs1 ∧
      cs = c :: cs1 := by
  rw [encodeChars_succ] at h
  cases hc : BASE_32[(encodeBits lat lon 5 s).hash_value]? with
  | none => rw [hc] at h; cases h
  | some c =>
    rw [hc, Option.some_bind] at h
    cases hcs : encodeChars lat lon n { encodeBits lat lon 5 s with hash_value := 0 } with
    | none => rw [hcs] at h; cases h
    | some cs1 =>
      rw [hcs, Option.map_some'] at h
      exact ⟨c, cs1, rfl, rfl, (Option.some.inj h).symm⟩

theorem sameCell_reset (e : EncodeState) (d : DecodeState) (h : SameCell e d) :
    SameCell { e with hash_value := 0 } d := h

/-- Decoding the bytes written by the outer loop of `EncodeGeoHash` ends on the
bounds that loop ended on. -/
theorem sameCell_chars (lat lon : ℚ) (n : Nat) :
    ∀ (e : EncodeState) (d : DecodeState) (cs : List Byte), SameCell e d →
      encodeChars lat lon n e = some cs →
      SameCell (encodeState lat lon n e) ((runes cs).foldl decodeChar d) := by
  induction n with
  | zero =>
    intro e d cs h hcs
    rw [encodeChars] at hcs
    cases hcs
    exact h
  | succ n ih =>
    intro e d cs h hcs
    obtain ⟨c, cs1, hc, hcs1, rfl⟩ := encodeChars_eq_some lat lon n e cs hcs
    obtain ⟨hidx, hascii⟩ := base32_getElem _ c hc
    rw [runes_cons_ascii c cs1 hascii, List.foldl_cons, encodeState_succ]
    apply ih _ _ _ _ hcs1
    have h5 := sameCell_bits lat lon 5 e d h
    have hr : (List.range 5).reverse = [4, 3, 2, 1, 0] := by decide
    rw [hr] at h5
    simp only [decodeChar, hidx]
    exact sameCell_reset _ _ h5

/-! ## Codec: the cell of `EncodeGeoHash` encloses the point -/

theorem inCell_encodeBit (lat lon : ℚ) (e : EncodeState) (h : InCell lat lon e) :
    InCell lat lon (encodeBit lat lon e) := by
  obtain ⟨h1, h2, h3, h4, h5, h6⟩ := h
  unfold encodeBit
  by_cases hpar : (e.bits + 1) % 2 = 1
  · have e1 : (e.bits + 1 + 1) / 2 = (e.bits + 1) / 2 + 1 := by omega
    have e2 : (e.bits + 1) / 2 = e.bits / 2 := by omega
    simp only [hpar, if_true]
    by_cases hc : lon > (e.lon_min + e.lon_max) / 2
    · simp only [hc, if_true, InCell, e1, pow_succ]
      refine ⟨le_of_lt hc, h2, h3, h4, ?_, by rw [e2]; exact h6⟩
      field_simp at h5 ⊢
      linarith
    · simp only [hc, if_false, InCell, e1, pow_succ]
      refine ⟨h1, le_of_not_lt hc, h3, h4, ?_, by rw [e2]; exact h6⟩
      field_simp at h5 ⊢
      linarith
  · have e1 : (e.bits + 1 + 1) / 2 = (e.bits + 1) / 2 := by omega
    have e2 : (e.bits + 1) / 2 = e.bits / 2 + 1 := by omega
    simp only [hpar, if_false]
    by_cases hc : lat > (e.lat_min + e.lat_max) / 2
    · simp only [hc, if_true, InCell, e1]
      refine ⟨h1, h2, le_of_lt hc, h4, h5, ?_⟩
      rw [e2, pow_succ]
      field_simp at h6 ⊢
      linarith
    · simp only [hc, if_false, InCell, e1]
      refine ⟨h1, h2, h3, le_of_not_lt hc, h5, ?_⟩
      rw [e2, pow_succ]
      field_simp at h6 ⊢
      linarith

theorem inCell_encodeBits (lat lon : ℚ) (n : Nat) :
    ∀ e : EncodeState, InCell lat lon e → InCell lat lon (encodeBits lat lon n e) := by
  induction n with
  | zero => intro e h; exact h
  | succ n ih => intro e h; rw [encodeBits_succ]; exact ih _ (inCell_encodeBit lat lon e h)

theorem inCell_reset (lat lon : ℚ) (e : EncodeState) (h : InCell lat lon e) :
    InCell lat lon { e with hash_value := 0 } := h

theorem inCell_encodeState (lat lon : ℚ) (n : Nat) :
    ∀ e : EncodeState, InCell lat lon e → InCell lat lon (encodeState lat lon n e) := by
  induction n with
  | zero => intro e h; exact h
  | succ n ih =>
    intro e h
    rw [encodeState_succ]
    exact ih _ (inCell_reset lat lon _ (inCell_encodeBits lat lon 5 e h))

theorem inCell_encodeInit (lat lon : ℚ) (h1 : -90 ≤ lat) (h2 : lat ≤ 90) (h3 : -180 ≤ lon)
    (h4 : lon ≤ 180) : InCell lat lon encodeInit := by
  simp only [InCell, encodeInit, MIN_LATITUDE, MAX_LATITUDE, MIN_LONGITUDE, MAX_LONGITUDE]
  refine ⟨h3, h4, h1, h2, ?_, ?_⟩ <;> norm_num

theorem sameCell_init : SameCell encodeInit decodeInit := by
  simp [SameCell, encodeInit, decodeInit]

/-- The round trip in terms of the loops: the decoded point is the centre of a
cell that encloses the encoded point, of the widths reached after `5 * n`
bisections. -/
theorem roundtrip_chars (lat lon : ℚ) (n : Nat) (g : List Byte)
    (h1 : -90 ≤ lat) (h2 : lat ≤ 90) (h3 : -180 ≤ lon) (h4 : lon ≤ 180)
    (hg : encodeChars lat lon n encodeInit = some g) :
    |(DecodeGeoHash g).2 - lon| ≤ 180 / 2 ^ ((5 * n + 1) / 2) ∧
      |(DecodeGeoHash g).1 - lat| ≤ 90 / 2 ^ (5 * n / 2) := by
  have hs := sameCell_chars lat lon n encodeInit decodeInit g sameCell_init hg
  have hi := inCell_encodeState lat lon n encodeInit (inCell_encodeInit lat lon h1 h2 h3 h4)
  have hb := encodeState_bits lat lon n encodeInit
  obtain ⟨s1, s2, s3, s4, -⟩ := hs
  obtain ⟨i1, i2, i3, i4, i5, i6⟩ := hi
  have hb0 : encodeInit.bits = 0 := rfl
  rw [hb, hb0, Nat.zero_add] at i5 i6
  simp only [DecodeGeoHash, decodeRunes, s1, s2, s3, s4]
  have w1 : (180 : ℚ) / 2 ^ ((5 * n + 1) / 2) =
      ((encodeState lat lon n encodeInit).lon_max -
        (encodeState lat lon n encodeInit).lon_min) / 2 := by
    rw [i5]; ring
  have w2 : (90 : ℚ) / 2 ^ (5 * n / 2) =
      ((encodeState lat lon n encodeInit).lat_max -
        (encodeState lat lon n encodeInit).lat_min) / 2 := by
    rw [i6]; ring
  rw [w1, w2]
  constructor <;> rw [abs_le] <;> constructor <;> linarith

theorem ceil_half (k : Nat) : ⌈(k : ℚ) / 2⌉₊ = (k + 1) / 2 := by
  rcases Nat.even_or_odd' k with ⟨m, rfl | rfl⟩
  · have : ((2 * m : Nat) : ℚ) / 2 = (m : ℚ) := by push_cast; ring
    rw [this, Nat.ceil_natCast]; omega
  · have e : (2 * m + 1 + 1) / 2 = m + 1 := by omega
    rw [e, Nat.ceil_eq_iff (by omega)]
    constructor
    · push_cast; linarith
    · push_cast; linarith

theorem floor_half (k : Nat) : ⌊(k : ℚ) / 2⌋₊ = k / 2 := by
  have := Nat.floor_div_eq_div (α := ℚ) k 2
  simpa using this

/-! ## Codec: points of a box share the common prefix of its corners -/

/-- One bisection: when the two corners take the same branch, every point
between them takes it too. -/
theorem encodeBit_squeeze (swLat swLon neLat neLon lat lon : ℚ) (s : EncodeState)
    (h3 : swLat ≤ lat) (h4 : lat ≤ neLat) (h5 : swLon ≤ lon) (h6 : lon ≤ neLon)
    (hh : (encodeBit swLat swLon s).hash_value = (encodeBit neLat neLon s).hash_value) :
    encodeBit lat lon s = encodeBit swLat swLon s ∧
      encodeBit neLat neLon s = encodeBit swLat swLon s := by
  unfold encodeBit at hh ⊢
  simp only [Nat.shiftLeft_eq, pow_one, gt_iff_lt] at hh ⊢
  split_ifs at hh ⊢ <;>
    first
    | exact ⟨rfl, rfl⟩
    | (exfalso; simp only [] at hh; omega)
    | (exfalso; linarith)

theorem encodeBits_squeeze (swLat swLon neLat neLon lat lon : ℚ)
    (h3 : swLat ≤ lat) (h4 : lat ≤ neLat) (h5 : swLon ≤ lon) (h6 : lon ≤ neLon) (n : Nat) :
    ∀ s : EncodeState,
      (encodeBits swLat swLon n s).hash_value = (encodeBits neLat neLon n s).hash_value →
      encodeBits lat lon n s = encodeBits swLat swLon n s ∧
        encodeBits neLat neLon n s = encodeBits swLat swLon n s := by
  induction n with
  | zero => intro s _; exact ⟨rfl, rfl⟩
  | succ n ih =>
    intro s hh
    rw [encodeBits_succ, encodeBits_succ] at hh
    have h1 : (encodeBit swLat swLon s).hash_value = (encodeBit neLat neLon s).hash_value := by
      rw [← encodeBits_hash_div swLat swLon n (encodeBit swLat swLon s), hh,
        encodeBits_hash_div]
    obtain ⟨e1, e2⟩ := encodeBit_squeeze swLat swLon neLat neLon lat lon s h3 h4 h5 h6 h1
    rw [encodeBits_succ, encodeBits_succ, encodeBits_succ, e1, e2]
    rw [e2] at hh
    exact ih _ hh

theorem commonPrefix_nil (b : List Byte) : commonPrefix [] b = [] := by
  cases b <;> rfl

theorem commonPrefix_cons (x y : Byte) (a b : List Byte) :
    commonPrefix (x :: a) (y :: b) = if x = y then x :: commonPrefix a b else [] := by
  rw [commonPrefix]

/-- The outer loop: the bytes written for a point of the box start with the
common prefix of the bytes written for the two corners. -/
theorem commonPrefix_encodeChars (swLat swLon neLat neLon lat lon : ℚ)
    (h3 : swLat ≤ lat) (h4 : lat ≤ neLat) (h5 : swLon ≤ lon) (h6 : lon ≤ neLon) (n : Nat) :
    ∀ (s : EncodeState) (a b g : List Byte),
      encodeChars swLat swLon n s = some a → encodeChars neLat neLon n s = some b →
      encodeChars lat lon n s = some g → commonPrefix a b <+: g := by
  induction n with
  | zero =>
    intro s a b g ha _ _
    rw [encodeChars] at ha
    cases ha
    rw [commonPrefix_nil]
    exact List.nil_prefix
  | succ n ih =>
    intro s a b g ha hb hg
    obtain ⟨ca, a1, hca, ha1, rfl⟩ := encodeChars_eq_some _ _ n s a ha
    obtain ⟨cb, b1, hcb, hb1, rfl⟩ := encodeChars_eq_some _ _ n s b hb
    obtain ⟨cg, g1, hcg, hg1, rfl⟩ := encodeChars_eq_some _ _ n s g hg
    rw [commonPrefix_cons]
    by_cases hab : ca = cb
    · rw [if_pos hab]
      have hh : (encodeBits swLat swLon 5 s).hash_value =
          (encodeBits neLat neLon 5 s).hash_value := by
        have i1 := (base32_getElem _ ca hca).1
        have i2 := (base32_getElem _ cb hcb).1
        rw [hab, i2] at i1
        exact (Int.ofNat_inj.1 i1).symm
      obtain ⟨e1, e2⟩ :=
        encodeBits_squeeze swLat swLon neLat neLon lat lon h3 h4 h5 h6 5 s hh
      rw [e1] at hcg hg1
      rw [e2] at hb1
      rw [hca] at hcg
      cases hcg
      exact (List.cons_prefix_cons).2 ⟨rfl, ih _ a1 b1 g1 ha1 hb1 hg1⟩
    · rw [if_neg hab]
      exact List.nil_prefix

theorem encodeChars_ascii (lat lon : ℚ) (n : Nat) :
    ∀ (s : EncodeState) (g : List Byte), encodeChars lat lon n s = some g →
      ∀ b ∈ g, b.val < 0x80 := by
  induction n with
  | zero =>
    intro s g hg b hb
    rw [encodeChars] at hg
    cases hg
    cases hb
  | succ n ih =>
    intro s g hg b hb
    obtain ⟨c, g1, hc, hg1, rfl⟩ := encodeChars_eq_some _ _ n s g hg
    rcases List.mem_cons.1 hb with rfl | hb1
    · exact (base32_getElem _ _ hc).2
    · exact ih _ g1 hg1 b hb1

/-! ## Codec: the emitted symbols -/

theorem encodeState_hash (lat lon : ℚ) (n : Nat) :
    ∀ s : EncodeState, s.hash_value = 0 → (encodeState lat lon n s).hash_value = 0 := by
  induction n with
  | zero => intro s h; exact h
  | succ n ih => intro s _; rw [encodeState_succ]; exact ih _ rfl

/-- The `i`-th byte written by the outer loop is the alphabet symbol at the
value the accumulator has after the five bisections of iteration `i`. -/
theorem encodeChars_getElem (lat lon : ℚ) (n : Nat) :
    ∀ (s : EncodeState) (g : List Byte), encodeChars lat lon n s = some g →
      ∀ i, i < n →
        g[i]? = BASE_32[(encodeBits lat lon 5 (encodeState lat lon i s)).hash_value]? := by
  induction n with
  | zero => intro s g _ i hi; omega
  | succ n ih =>
    intro s g hg i hi
    obtain ⟨c, g1, hc, hg1, rfl⟩ := encodeChars_eq_some lat lon n s g hg
    cases i with
    | zero => rw [List.getElem?_cons_zero, ← hc]; rfl
    | succ i =>
      rw [List.getElem?_cons_succ, encodeState_succ]
      exact ih _ g1 hg1 i (by omega)

theorem encodeChars_mem (lat lon : ℚ) (n : Nat) :
    ∀ (s : EncodeState) (g : List Byte), encodeChars lat lon n s = some g →
      ∀ b ∈ g, b ∈ BASE_32 := by
  induction n with
  | zero =>
    intro s g hg b hb
    rw [encodeChars] at hg
    cases hg
    cases hb
  | succ n ih =>
    intro s g hg b hb
    obtain ⟨c, g1, hc, hg1, rfl⟩ := encodeChars_eq_some lat lon n s g hg
    rcases List.mem_cons.1 hb with rfl | hb1
    · exact List.getElem?_mem hc
    · exact ih _ g1 hg1 b hb1

/-! ## Codec: coordinates outside the range -/

theorem strictIn_of_decodeBit (lat lon : ℚ) (idx : Int) (i : Nat) (d : DecodeState)
    (h : StrictIn lat lon (decodeBit idx i d)) : StrictIn lat lon d := by
  unfold decodeBit at h
  simp only [StrictIn] at h ⊢
  split_ifs at h <;> simp only [] at h <;> obtain ⟨h1, h2, h3, h4⟩ := h <;>
    refine ⟨?_, ?_, ?_, ?_⟩ <;> linarith

theorem strictIn_of_foldl_bits (lat lon : ℚ) (idx : Int) (l : List Nat) :
    ∀ d : DecodeState, StrictIn lat lon (l.foldl (fun st i => decodeBit idx i st) d) →
      StrictIn lat lon d := by
  induction l with
  | nil => intro d h; exact h
  | cons i l ih =>
    intro d h
    rw [List.foldl_cons] at h
    exact strictIn_of_decodeBit lat lon idx i d (ih _ h)

theorem strictIn_of_foldl (lat lon : ℚ) (rs : List Nat) :
    ∀ d : DecodeState, StrictIn lat lon (rs.foldl decodeChar d) → StrictIn lat lon d := by
  induction rs with
  | nil => intro d h; exact h
  | cons c rs ih =>
    intro d h
    rw [List.foldl_cons] at h
    exact strictIn_of_foldl_bits lat lon _ _ d (ih _ h)

/-- One bisection: a point strictly inside the half that `DecodeGeoHash` keeps
makes `EncodeGeoHash` keep the same half and push the same bit. -/
theorem encodeBit_follows (lat lon : ℚ) (e : EncodeState) (d : DecodeState) (h i : Nat)
    (hm : SameCell e d) (hs : StrictIn lat lon (decodeBit (h : Int) i d)) :
    (encodeBit lat lon e).hash_value = 2 * e.hash_value + h / 2 ^ i % 2 ∧
      SameCell (encodeBit lat lon e) (decodeBit (h : Int) i d) := by
  have hhash : (encodeBit lat lon e).hash_value = 2 * e.hash_value + h / 2 ^ i % 2 := by
    obtain ⟨h1, h2, h3, h4, h5⟩ := hm
    have hbit : h / 2 ^ i % 2 = 0 ∨ h / 2 ^ i % 2 = 1 := by omega
    unfold decodeBit at hs
    rw [land_shift_nat] at hs
    unfold encodeBit
    simp only [Nat.shiftLeft_eq, pow_one, StrictIn] at hs ⊢
    by_cases hpar : (e.bits + 1) % 2 = 1
    · have hl : d.is_lon = true := by rw [h5]; simp; omega
      simp only [hpar, if_true, hl] at hs ⊢
      rcases hbit with hb | hb
      · simp only [hb, Nat.cast_zero, zero_ne_one, if_false, h3, h4] at hs
        have hc : ¬ lon > (e.lon_min + e.lon_max) / 2 := by
          have := hs.2.1
          exact not_lt.2 (le_of_lt this)
        simp only [hc, if_false, hb]
        omega
      · simp only [hb, Nat.cast_one, if_true, h3, h4] at hs
        have hc : lon > (e.lon_min + e.lon_max) / 2 := hs.1
        simp only [hc, if_true, hb]
        omega
    · have hl : d.is_lon = false := by rw [h5]; simp; omega
      simp only [hpar, if_false, hl] at hs ⊢
      rcases hbit with hb | hb
      · simp only [hb, Nat.cast_zero, zero_ne_one, if_false, h1, h2] at hs
        have hc : ¬ lat > (e.lat_min + e.lat_max) / 2 := by
          have := hs.2.2.2
          exact not_lt.2 (le_of_lt this)
        simp only [hc, if_false, hb]
        omega
      · simp only [hb, Nat.cast_one, if_true, h1, h2] at hs
        have hc : lat > (e.lat_min + e.lat_max) / 2 := hs.2.2.1
        simp only [hc, if_true, hb]
        omega
  refine ⟨hhash, sameCell_step lat lon e d _ i hm ?_⟩
  rw [land_shift_nat, hhash]
  congr 1
  omega

/-- The bisections of one symbol: a point strictly inside the cell that
`DecodeGeoHash` reaches from the bits of `h` makes `EncodeGeoHash` reach the
same cell and accumulate the low bits of `h`. -/
theorem encodeBits_follows (lat lon : ℚ) (h n : Nat) :
    ∀ (e : EncodeState) (d : DecodeState), SameCell e d →
      StrictIn lat lon ((List.range n).reverse.foldl (fun st i => decodeBit (h : Int) i st) d) →
      (encodeBits lat lon n e).hash_value = 2 ^ n * e.hash_value + h % 2 ^ n ∧
        SameCell (encodeBits lat lon n e)
          ((List.range n).reverse.foldl (fun st i => decodeBit (h : Int) i st) d) := by
  induction n with
  | zero =>
    intro e d hm _
    refine ⟨?_, hm⟩
    simp [encodeBits, Nat.mod_one]
  | succ n ih =>
    intro e d hm hs
    rw [List.range_succ, List.reverse_append, List.reverse_singleton, List.singleton_append,
      List.foldl_cons] at hs ⊢
    have hs1 := strictIn_of_foldl_bits lat lon _ _ _ hs
    obtain ⟨hh1, hm1⟩ := encodeBit_follows lat lon e d h n hm hs1
    obtain ⟨hh2, hm2⟩ := ih _ _ hm1 hs
    rw [encodeBits_succ]
    refine ⟨?_, hm2⟩
    rw [hh2, hh1, Nat.mod_pow_succ]
    ring

theorem base32_mem (c : Byte) (hc : c ∈ BASE_32) :
    ∃ h : Nat, h < 32 ∧ BASE_32[h]? = some c ∧
      IndexByte BASE_32 (byteOfRune c.val) = (h : Int) ∧ c.val < 0x80 := by
  obtain ⟨h, hh⟩ := List.mem_iff_getElem?.1 hc
  have hlt : h < 32 := by
    have := (List.getElem?_eq_some_iff.1 hh).1
    rwa [BASE_32_length] at this
  exact ⟨h, hlt, hh, (base32_getElem h c hh).1, (base32_getElem h c hh).2⟩

/-- Encoding a point strictly inside the cell that decoding `g` ends on writes
`g` again. -/
theorem encodeChars_of_strictIn (lat lon : ℚ) (g : List Byte) :
    ∀ (e : EncodeState) (d : DecodeState), (∀ b ∈ g, b ∈ BASE_32) → SameCell e d →
      e.hash_value = 0 → StrictIn lat lon ((runes g).foldl decodeChar d) →
      encodeChars lat lon g.length e = some g := by
  induction g with
  | nil => intro e d _ _ _ _; rw [List.length_nil, encodeChars]
  | cons c g ih =>
    intro e d hv hm h0 hs
    obtain ⟨h, hlt, hget, hidx, hascii⟩ := base32_mem c (hv c (List.mem_cons_self _ _))
    rw [runes_cons_ascii c g hascii, List.foldl_cons] at hs
    have hs1 := strictIn_of_foldl lat lon _ _ hs
    have hr : (List.range 5).reverse = [4, 3, 2, 1, 0] := by decide
    simp only [decodeChar, hidx] at hs hs1
    rw [← hr] at hs1
    obtain ⟨hh, hm5⟩ := encodeBits_follows lat lon h 5 e d hm hs1
    rw [h0, Nat.mul_zero, Nat.zero_add, Nat.mod_eq_of_lt (by omega : h < 2 ^ 5)] at hh
    rw [hr] at hm5
    have ih1 := ih _ _ (fun b hb => hv b (List.mem_cons_of_mem _ hb))
      (sameCell_reset _ _ hm5) rfl hs
    rw [List.length_cons, encodeChars_succ, hh, hget, Option.some_bind, ih1, Option.map_some']

theorem wide_decodeBit (idx : Int) (i : Nat) (d : DecodeState) (h : Wide d) :
    Wide (decodeBit idx i d) := by
  obtain ⟨h1, h2⟩ := h
  unfold decodeBit
  simp only [Wide]
  split_ifs <;> simp only [] <;> constructor <;> linarith

theorem wide_foldl_bits (idx : Int) (l : List Nat) :
    ∀ d : DecodeState, Wide d → Wide (l.foldl (fun st i => decodeBit idx i st) d) := by
  induction l with
  | nil => intro d h; exact h
  | cons i l ih => intro d h; rw [List.foldl_cons]; exact ih _ (wide_decodeBit idx i d h)

theorem wide_foldl (rs : List Nat) :
    ∀ d : DecodeState, Wide d → Wide (rs.foldl decodeChar d) := by
  induction rs with
  | nil => intro d h; exact h
  | cons c rs ih =>
    intro d h
    rw [List.foldl_cons]
    exact ih _ (wide_foldl_bits _ _ d h)

theorem wide_decodeInit : Wide decodeInit := by
  simp only [Wide, decodeInit, MIN_LATITUDE, MAX_LATITUDE, MIN_LONGITUDE, MAX_LONGITUDE]
  norm_num

/-- The point that `DecodeGeoHash` returns lies strictly inside its last cell. -/
theorem strictIn_decode (g : List Byte) :
    StrictIn (DecodeGeoHash g).1 (DecodeGeoHash g).2 ((runes g).foldl decodeChar decodeInit) := by
  obtain ⟨h1, h2⟩ := wide_foldl (runes g) decodeInit wide_decodeInit
  simp only [DecodeGeoHash, decodeRunes, StrictIn]
  refine ⟨?_, ?_, ?_, ?_⟩ <;> linarith

/-! ## Codec: the error bounds by precision -/

theorem TrieNode.children_mk (c : Byte → Option TrieNode) (e : Bool) :
    (TrieNode.mk c e).children = c := rfl

theorem TrieNode.isEnd_mk (c : Byte → Option TrieNode) (e : Bool) :
    (TrieNode.mk c e).isEnd = e := rfl

theorem TrieNode.eta (n : TrieNode) : TrieNode.mk n.children n.isEnd = n := by
  cases n; rfl

theorem setKey_same (m : Byte → Option TrieNode) (c : Byte) (v : TrieNode) :
    setKey m c v c = some v := by
  simp [setKey]

theorem setKey_other (m : Byte → Option TrieNode) (c b : Byte) (v : TrieNode) (h : b ≠ c) :
    setKey m c v b = m b := by
  simp [setKey, h]

theorem setKey_setKey (m : Byte → Option TrieNode) (c : Byte) (v w : TrieNode) :
    setKey (setKey m c v) c w = setKey m c w := by
  funext b; simp only [setKey]; split_ifs <;> rfl

theorem setKey_self (m : Byte → Option TrieNode) (c : Byte) (v : TrieNode) (h : m c = some v) :
    setKey m c v = m := by
  funext b; simp only [setKey]; split_ifs with hb
  · rw [hb, h]
  · rfl

theorem deleteKey_setKey (m : Byte → Option TrieNode) (c : Byte) (v : TrieNode)
    (h : m c = none) : deleteKey (setKey m c v) c = m := by
  funext b; simp only [deleteKey, setKey]; split_ifs with hb
  · rw [hb, h]
  · rfl

theorem len_eq_zero_iff (m : Byte → Option TrieNode) : len m = 0 ↔ ∀ b, m b = none := by
  simp only [len, List.length_eq_zero, List.filter_eq_nil_iff, List.mem_finRange,
    forall_true_left, Bool.not_eq_true, Option.not_isSome, Option.isNone_iff_eq_none]

theorem searchFrom_nil (n : TrieNode) : searchFrom n [] = n.isEnd := by
  rw [searchFrom]

theorem searchFrom_cons (n : TrieNode) (c : Byte) (rest : List Byte) :
    searchFrom n (c :: rest) =
      match n.children c with
      | none => false
      | some child => searchFrom child rest := by
  rw [searchFrom]

/-- A node without children and without end flag stores nothing. -/
theorem searchFrom_of_empty (n : TrieNode) (hc : ∀ b, n.children b = none)
    (he : n.isEnd = false) (h : List Byte) : searchFrom n h = false := by
  cases h with
  | nil => rw [searchFrom_nil, he]
  | cons c rest => rw [searchFrom_cons, hc c]

theorem searchFrom_emptyNode (h : List Byte) : searchFrom emptyNode h = false :=
  searchFrom_of_empty emptyNode (fun _ => rfl) rfl h

/-- What `Search` finds after the loop of `Insert` has run. -/
theorem searchFrom_insertFrom (g : List Byte) :
    ∀ (n : TrieNode) (h : List Byte),
      searchFrom (insertFrom n g) h = (decide (h = g) || searchFrom n h) := by
  induction g with
  | nil =>
    intro n h
    cases h with
    | nil => simp [insertFrom, searchFrom_nil, TrieNode.isEnd_mk]
    | cons d r => simp [insertFrom, searchFrom_cons, TrieNode.children_mk]
  | cons c rest ih =>
    intro n h
    cases h with
    | nil =>
      rw [insertFrom]
      cases hch : n.children c <;> simp [searchFrom_nil, TrieNode.isEnd_mk]
    | cons d r =>
      rw [insertFrom]
      by_cases hd : d = c
      · subst hd
        cases hch : n.children d with
        | none =>
          simp only [searchFrom_cons, TrieNode.children_mk, setKey_same, ih, hch,
            searchFrom_emptyNode]
          simp
        | some child =>
          simp only [searchFrom_cons, TrieNode.children_mk, setKey_same, ih, hch]
          simp
      · cases hch : n.children c <;>
          simp [searchFrom_cons, TrieNode.children_mk, setKey_other _ _ _ _ hd, hd]

/-- The flag returned by `deleteHelper` is set only when the updated node has
neither children nor end flag. -/
theorem deleteHelper_flag (g : List Byte) (n : TrieNode)
    (h : (deleteHelper n g).2 = true) :
    (∀ b, (deleteHelper n g).1.children b = none) ∧ (deleteHelper n g).1.isEnd = false := by
  cases g with
  | nil =>
    rw [deleteHelper] at h ⊢
    by_cases he : n.isEnd = true
    · simp only [he, Bool.not_true, Bool.false_eq_true, if_false] at h ⊢
      simp only [beq_iff_eq, len_eq_zero_iff] at h
      exact ⟨h, rfl⟩
    · simp [he] at h
  | cons c rest =>
    rw [deleteHelper] at h ⊢
    cases hch : n.children c with
    | none => simp [hch] at h
    | some child =>
      simp only [hch] at h ⊢
      by_cases hr : (deleteHelper child rest).2 = true
      · simp only [hr, if_true, Bool.and_eq_true, beq_iff_eq, len_eq_zero_iff,
          Bool.not_eq_true'] at h ⊢
        exact ⟨h.1, h.2⟩
      · simp [hr] at h

/-- What `Search` finds after `deleteHelper` has run. -/
theorem searchFrom_deleteHelper (g : List Byte) :
    ∀ (n : TrieNode) (h : List Byte),
      searchFrom (deleteHelper n g).1 h = (!decide (h = g) && searchFrom n h) := by
  induction g with
  | nil =>
    intro n h
    rw [deleteHelper]
    by_cases he : n.isEnd = true
    · cases h with
      | nil => simp [he, searchFrom_nil, TrieNode.isEnd_mk]
      | cons d r => simp [he, searchFrom_cons, TrieNode.children_mk]
    · cases h with
      | nil => simp [he, searchFrom_nil]
      | cons d r => simp [he]
  | cons c rest ih =>
    intro n h
    rw [deleteHelper]
    cases hch : n.children c with
    | none =>
      cases h with
      | nil => simp
      | cons d r =>
        by_cases hd : d = c
        · subst hd; simp [searchFrom_cons, hch]
        · simp [hd]
    | some child =>
      simp only []
      by_cases hr : (deleteHelper child rest).2 = true
      · simp only [hr, if_true]
        obtain ⟨hnc, hne⟩ := deleteHelper_flag rest child hr
        cases h with
        | nil => simp [searchFrom_nil, TrieNode.isEnd_mk]
        | cons d r =>
          by_cases hd : d = c
          · subst hd
            have h1 := ih child r
            rw [searchFrom_of_empty _ hnc hne] at h1
            simp only [searchFrom_cons, TrieNode.children_mk, deleteKey, if_true, hch]
            by_cases hrr : r = rest
            · simp [hrr]
            · simp only [hrr, decide_False, Bool.not_false, Bool.true_and] at h1
              simp [← h1]
          · simp [searchFrom_cons, TrieNode.children_mk, deleteKey, hd]
      · simp only [hr, Bool.false_eq_true, if_false]
        cases h with
        | nil => simp [searchFrom_nil, TrieNode.isEnd_mk]
        | cons d r =>
          by_cases hd : d = c
          · subst hd
            simp only [searchFrom_cons, TrieNode.children_mk, setKey_same, ih, hch]
            simp
          · simp [searchFrom_cons, TrieNode.children_mk, setKey_other _ _ _ _ hd, hd]

/-- Running the loop of `Insert` twice with the same key. -/
theorem insertFrom_idem (g : List Byte) :
    ∀ n : TrieNode, insertFrom (insertFrom n g) g = insertFrom n g := by
  induction g with
  | nil => intro n; simp [insertFrom, TrieNode.children_mk]
  | cons c rest ih =>
    intro n
    cases hch : n.children c <;>
      simp [insertFrom, hch, TrieNode.children_mk, TrieNode.isEnd_mk, setKey_same, setKey_setKey, ih]

/-- `deleteHelper` on a key that `Search` does not find. -/
theorem deleteHelper_absent (g : List Byte) :
    ∀ n : TrieNode, searchFrom n g = false → deleteHelper n g = (n, false) := by
  induction g with
  | nil =>
    intro n h
    rw [searchFrom_nil] at h
    simp [deleteHelper, h]
  | cons c rest ih =>
    intro n h
    rw [searchFrom_cons] at h
    rw [deleteHelper]
    cases hch : n.children c with
    | none => rfl
    | some child =>
      rw [hch] at h
      simp only [ih child h, Bool.false_eq_true, if_false, setKey_self _ _ _ hch,
        TrieNode.eta]

/-! ## Trie: the no-dangling-node invariant -/

theorem walk_cons (n : TrieNode) (c : Byte) (rest : List Byte) :
    walk n (c :: rest) =
      match n.children c with
      | none => none
      | some child => walk child rest := by
  rw [walk]

theorem walk_nil (n : TrieNode) : walk n [] = some n := by
  rw [walk]

theorem noDangling_iff (n : TrieNode) :
    NoDangling n ↔ ∀ b child, n.children b = some child → Live child ∧ NoDangling child := by
  constructor
  · intro h b child hb
    constructor
    · apply h [b] child (by simp)
      simp only [walk_cons, hb, walk_nil]
    · intro path m _ hw
      apply h (b :: path) m (by simp)
      rw [walk_cons, hb]; exact hw
  · intro h path m hp hw
    cases path with
    | nil => exact absurd rfl hp
    | cons b rest =>
      rw [walk_cons] at hw
      cases hb : n.children b with
      | none => simp only [hb] at hw; cases hw
      | some child =>
        simp only [hb] at hw
        obtain ⟨hl, hn⟩ := h b child hb
        cases rest with
        | nil => simp only [walk_nil, Option.some.injEq] at hw; subst hw; exact hl
        | cons d r => exact hn (d :: r) m (by simp) hw

theorem noDangling_emptyNode : NoDangling emptyNode := by
  rw [noDangling_iff]
  intro b child hb
  cases hb

theorem not_live_iff (n : TrieNode) :
    ¬ Live n ↔ (len n.children == 0 && !n.isEnd) = true := by
  simp only [Live, not_or, Bool.and_eq_true, beq_iff_eq, len_eq_zero_iff, Bool.not_eq_true',
    not_exists, not_not, Bool.not_eq_true]
  tauto

theorem live_insertFrom (g : List Byte) (n : TrieNode) : Live (insertFrom n g) := by
  cases g with
  | nil => left; rw [insertFrom, TrieNode.isEnd_mk]
  | cons c rest =>
    right
    refine ⟨c, ?_⟩
    rw [insertFrom]
    cases hch : n.children c <;> simp [TrieNode.children_mk, setKey_same]

theorem noDangling_insertFrom (g : List Byte) :
    ∀ n : TrieNode, NoDangling n → NoDangling (insertFrom n g) := by
  induction g with
  | nil =>
    intro n hn
    rw [noDangling_iff] at hn ⊢
    rw [insertFrom, TrieNode.children_mk]
    exact hn
  | cons c rest ih =>
    intro n hn
    have hn2 := (noDangling_iff n).1 hn
    rw [noDangling_iff]
    intro b child hb
    rw [insertFrom] at hb
    by_cases hbc : b = c
    · subst hbc
      cases hch : n.children b with
      | none =>
        simp only [hch, TrieNode.children_mk, setKey_same, Option.some.injEq] at hb
        subst hb
        exact ⟨live_insertFrom _ _, ih _ noDangling_emptyNode⟩
      | some ch =>
        simp only [hch, TrieNode.children_mk, setKey_same, Option.some.injEq] at hb
        subst hb
        exact ⟨live_insertFrom _ _, ih _ (hn2 b ch hch).2⟩
    · cases hch : n.children c <;>
        simp only [hch, TrieNode.children_mk, setKey_other _ _ _ _ hbc] at hb <;>
        exact hn2 b child hb

theorem noDangling_deleteHelper (g : List Byte) :
    ∀ n : TrieNode, NoDangling n →
      NoDangling (deleteHelper n g).1 ∧
        ((deleteHelper n g).2 = false → Live n → Live (deleteHelper n g).1) := by
  induction g with
  | nil =>
    intro n hn
    rw [deleteHelper]
    by_cases he : n.isEnd = true
    · simp only [he, Bool.not_true, Bool.false_eq_true, if_false]
      constructor
      · rw [noDangling_iff] at hn ⊢
        rw [TrieNode.children_mk]; exact hn
      · intro hf _
        right
        by_contra hcon
        have : len n.children = 0 := by
          rw [len_eq_zero_iff]
          intro b
          by_contra hb
          exact hcon ⟨b, by rw [TrieNode.children_mk]; exact hb⟩
        simp [this] at hf
    · simp only [he, Bool.not_false, if_true]
      exact ⟨hn, fun _ h => h⟩
  | cons c rest ih =>
    intro n hn
    have hn2 := (noDangling_iff n).1 hn
    rw [deleteHelper]
    cases hch : n.children c with
    | none => exact ⟨hn, fun _ h => h⟩
    | some child =>
      simp only []
      obtain ⟨hlc, hnc⟩ := hn2 c child hch
      obtain ⟨ih1, ih2⟩ := ih child hnc
      by_cases hr : (deleteHelper child rest).2 = true
      · simp only [hr, if_true]
        constructor
        · rw [noDangling_iff]
          intro b ch hb
          rw [TrieNode.children_mk] at hb
          simp only [deleteKey] at hb
          split_ifs at hb
          exact hn2 b ch hb
        · intro hf _
          by_contra hcon
          rw [not_live_iff, TrieNode.children_mk, TrieNode.isEnd_mk] at hcon
          rw [hcon] at hf
          cases hf
      · simp only [hr, Bool.false_eq_true, if_false]
        have hr2 : (deleteHelper child rest).2 = false := by simpa using hr
        constructor
        · rw [noDangling_iff]
          intro b ch hb
          rw [TrieNode.children_mk] at hb
          by_cases hbc : b = c
          · subst hbc
            rw [setKey_same] at hb
            cases hb
            exact ⟨ih2 hr2 hlc, ih1⟩
          · rw [setKey_other _ _ _ _ hbc] at hb
            exact hn2 b ch hb
        · intro _ _
          right
          exact ⟨c, by simp [TrieNode.children_mk, setKey_same]⟩

theorem noDangling_of_reachable (t : GeoHashTrie) (h : Reachable t) : NoDangling t.root := by
  induction h with
  | new => exact noDangling_emptyNode
  | insert t g _ ih => exact noDangling_insertFrom g _ ih
  | delete t g _ ih => exact (noDangling_deleteHelper g _ ih).1

theorem deleteHelper_cons_some (n child : TrieNode) (c : Byte) (rest : List Byte)
    (h : n.children c = some child) :
    deleteHelper n (c :: rest) =
      if (deleteHelper child rest).2 then
        (.mk (deleteKey n.children c) n.isEnd,
          len (deleteKey n.children c) == 0 && !n.isEnd)
      else (.mk (setKey n.children c (deleteHelper child rest).1) n.isEnd, false) := by
  rw [deleteHelper, h]

/-- Inserting a key that is not stored and deleting it again restores the
node, and the flag tells whether the node is dead. -/
theorem deleteHelper_insertFrom (g : List Byte) :
    ∀ n : TrieNode, NoDangling n → searchFrom n g = false →
      deleteHelper (insertFrom n g) g = (n, len n.children == 0 && !n.isEnd) := by
  induction g with
  | nil =>
    intro n _ hs
    rw [searchFrom_nil] at hs
    rw [insertFrom, deleteHelper]
    simp only [TrieNode.isEnd_mk, TrieNode.children_mk, Bool.not_true, Bool.false_eq_true,
      if_false, hs, Bool.not_false, Bool.and_true]
    rw [← hs, TrieNode.eta]
  | cons c rest ih =>
    intro n hn hs
    have hn2 := (noDangling_iff n).1 hn
    rw [searchFrom_cons] at hs
    rw [insertFrom]
    cases hch : n.children c with
    | none =>
      simp only []
      rw [deleteHelper_cons_some _ (insertFrom emptyNode rest) c rest
        (by rw [TrieNode.children_mk, setKey_same])]
      simp only [TrieNode.children_mk, TrieNode.isEnd_mk]
      rw [ih emptyNode noDangling_emptyNode (searchFrom_emptyNode rest)]
      have : (len emptyNode.children == 0 && !emptyNode.isEnd) = true := by
        rw [← not_live_iff]
        rintro (h | ⟨b, hb⟩)
        · cases h
        · exact hb rfl
      dsimp only
      rw [this, if_pos rfl, deleteKey_setKey _ _ _ hch, TrieNode.eta]
    | some child =>
      rw [hch] at hs
      simp only []
      obtain ⟨hlc, hnc⟩ := hn2 c child hch
      rw [deleteHelper_cons_some _ (insertFrom child rest) c rest
        (by rw [TrieNode.children_mk, setKey_same])]
      simp only [TrieNode.children_mk, TrieNode.isEnd_mk]
      rw [ih child hnc hs]
      have hdead : (len child.children == 0 && !child.isEnd) = false := by
        by_contra hcon
        rw [Bool.not_eq_false, ← not_live_iff] at hcon
        exact hcon hlc
      have hlen : (len n.children == 0) = false := by
        rw [beq_eq_false_iff_ne, Ne, len_eq_zero_iff]
        intro hall
        rw [hall c] at hch
        cases hch
      dsimp only
      rw [hdead, if_neg Bool.false_ne_true, setKey_setKey, setKey_self _ _ _ hch,
        TrieNode.eta, hlen, Bool.false_and]

/-! ## Trie: collection by common prefix -/

theorem collectGeohashes_eq (n : TrieNode) (pfx current : List Byte) :
    collectGeohashes n pfx current =
      (if n.isEnd && HasPrefix current pfx then [current] else []) ++
        (List.finRange 256).flatMap fun ch =>
          collectChild (n.children ch) pfx (current ++ stringOfByte ch) := by
  cases n
  rw [collectGeohashes, TrieNode.children_mk, TrieNode.isEnd_mk]

theorem collectChild_some (child : TrieNode) (pfx newCurrent : List Byte) :
    collectChild (some child) pfx newCurrent =
      if HasPrefix pfx newCurrent || HasPrefix newCurrent pfx then
        collectGeohashes child pfx newCurrent
      else [] := by
  rw [collectChild]

theorem hasPrefix_iff (s p : List Byte) : HasPrefix s p = true ↔ p <+: s := by
  simp [HasPrefix]

theorem stringOfByte_ascii (ch : Byte) (h : ch.val < 0x80) : stringOfByte ch = [ch] := by
  simp [stringOfByte, h]

/-- A stored key made of ASCII bytes that extends the filter is collected. -/
theorem mem_collectGeohashes (rest : List Byte) :
    ∀ (n : TrieNode) (pfx current : List Byte),
      searchFrom n rest = true → (∀ b ∈ rest, b.val < 0x80) → pfx <+: current ++ rest →
        current ++ rest ∈ collectGeohashes n pfx current := by
  induction rest with
  | nil =>
    intro n pfx current hs _ hp
    rw [searchFrom_nil] at hs
    rw [List.append_nil] at hp ⊢
    rw [collectGeohashes_eq, hs, (hasPrefix_iff _ _).2 hp]
    simp
  | cons ch rest ih =>
    intro n pfx current hs hascii hp
    rw [searchFrom_cons] at hs
    cases hch : n.children ch with
    | none => simp [hch] at hs
    | some child =>
      simp only [hch] at hs
      have hcur : current ++ ch :: rest = (current ++ [ch]) ++ rest := by simp
      rw [collectGeohashes_eq]
      apply List.mem_append_right
      rw [List.mem_flatMap]
      refine ⟨ch, List.mem_finRange ch, ?_⟩
      rw [hch, collectChild_some, stringOfByte_ascii ch (hascii ch (by simp))]
      have hcmp : HasPrefix pfx (current ++ [ch]) || HasPrefix (current ++ [ch]) pfx := by
        rw [Bool.or_eq_true, hasPrefix_iff, hasPrefix_iff]
        have h1 : current ++ [ch] <+: current ++ ch :: rest := by
          rw [hcur]; exact List.prefix_append _ _
        exact List.prefix_or_prefix_of_prefix h1 hp
      rw [if_pos hcmp, hcur]
      exact ih child pfx (current ++ [ch]) hs
        (fun b hb => hascii b (List.mem_cons_of_mem _ hb)) (by rw [← hcur]; exact hp)

theorem search_foldl_insert (L : List (List Byte)) :
    ∀ (t : GeoHashTrie) (h : List Byte),
      (L.foldl GeoHashTrie.Insert t).Search h = true ↔ h ∈ L ∨ t.Search h = true := by
  induction L with
  | nil => intro t h; simp
  | cons g L ih =>
    intro t h
    rw [List.foldl_cons, ih]
    simp only [GeoHashTrie.Search, GeoHashTrie.Insert, searchFrom_insertFrom, Bool.or_eq_true,
      decide_eq_true_eq, List.mem_cons]
    tauto

/-! ## Trie: every node lies on the path of a stored key -/

/-- Induction over a trie: a property holds of every node if it holds of a
node whenever it holds of all its children. -/
theorem TrieNode.induct {P : TrieNode → Prop}
    (h : ∀ n : TrieNode, (∀ b child, n.children b = some child → P child) → P n)
    (n : TrieNode) : P n := by
  refine TrieNode.rec (motive_1 := P) (motive_2 := fun o => ∀ child, o = some child → P child)
    ?_ ?_ ?_ n
  · intro children isEnd ih
    apply h
    intro b child hb
    exact ih b child hb
  · intro child hc
    cases hc
  · intro m ihm child hc
    cases hc
    exact ihm

theorem live_has_stored (n : TrieNode) :
    Live n → NoDangling n → ∃ ext, searchFrom n ext = true := by
  induction n using TrieNode.induct with
  | h n ih =>
    intro hl hn
    rcases hl with he | ⟨b, hb⟩
    · exact ⟨[], by rw [searchFrom_nil, he]⟩
    · cases hch : n.children b with
      | none => exact absurd hch hb
      | some child =>
        obtain ⟨hlc, hnc⟩ := (noDangling_iff n).1 hn b child hch
        obtain ⟨ext, hext⟩ := ih b child hch hlc hnc
        exact ⟨b :: ext, by rw [searchFrom_cons, hch]; exact hext⟩

theorem noDangling_walk (path : List Byte) :
    ∀ n m : TrieNode, NoDangling n → walk n path = some m → NoDangling m := by
  induction path with
  | nil =>
    intro n m hn hw
    rw [walk_nil] at hw
    cases hw
    exact hn
  | cons c rest ih =>
    intro n m hn hw
    rw [walk_cons] at hw
    cases hch : n.children c with
    | none => simp only [hch] at hw; cases hw
    | some child =>
      simp only [hch] at hw
      exact ih child m ((noDangling_iff n).1 hn c child hch).2 hw

theorem searchFrom_append (path : List Byte) :
    ∀ (n m : TrieNode) (ext : List Byte), walk n path = some m →
      searchFrom n (path ++ ext) = searchFrom m ext := by
  induction path with
  | nil =>
    intro n m ext hw
    rw [walk_nil] at hw
    cases hw
    rfl
  | cons c rest ih =>
    intro n m ext hw
    rw [walk_cons] at hw
    rw [List.cons_append, searchFrom_cons]
    cases hch : n.children c with
    | none => simp only [hch] at hw; cases hw
    | some child =>
      simp only [hch] at hw ⊢
      exact ih child m ext hw

theorem walk_of_searchFrom (path : List Byte) :
    ∀ (n : TrieNode) (ext : List Byte), searchFrom n (path ++ ext) = true →
      ∃ m, walk n path = some m := by
  induction path with
  | nil => intro n _ _; exact ⟨n, walk_nil n⟩
  | cons c rest ih =>
    intro n ext hs
    rw [List.cons_append, searchFrom_cons] at hs
    rw [walk_cons]
    cases hch : n.children c with
    | none => simp [hch] at hs
    | some child =>
      simp only [hch] at hs ⊢
      exact ih child ext hs

/-- In a trie without dangling nodes, the non-empty paths that lead to a node
are the non-empty prefixes of the stored keys. -/
theorem walk_iff_prefix_of_stored (n : TrieNode) (hn : NoDangling n) (path : List Byte)
    (hp : path ≠ []) :
    (∃ m, walk n path = some m) ↔ ∃ ext, searchFrom n (path ++ ext) = true := by
  constructor
  · rintro ⟨m, hw⟩
    obtain ⟨ext, hext⟩ := live_has_stored m (hn path m hp hw) (noDangling_walk path n m hn hw)
    exact ⟨ext, by rw [searchFrom_append path n m ext hw]; exact hext⟩
  · rintro ⟨ext, hs⟩
    exact walk_of_searchFrom path n ext hs

/-! ## Trie: counting nodes by their paths -/

theorem nodePaths_eq (n : TrieNode) :
    nodePaths n =
      [] :: (List.finRange 256).flatMap fun ch =>
        (childPaths (n.children ch)).map fun p => ch :: p := by
  cases n
  rw [nodePaths, TrieNode.children_mk]

theorem childPaths_some (child : TrieNode) : childPaths (some child) = nodePaths child := by
  rw [childPaths]

theorem childPaths_none : childPaths none = [] := by
  rw [childPaths]

theorem nodeCount_eq (n : TrieNode) :
    nodeCount n = 1 + ((List.finRange 256).map fun ch => childCount (n.children ch)).sum := by
  cases n
  rw [nodeCount, TrieNode.children_mk]

theorem childCount_some (child : TrieNode) : childCount (some child) = nodeCount child := by
  rw [childCount]

theorem childCount_none : childCount none = 0 := by
  rw [childCount]

theorem length_nodePaths (n : TrieNode) : (nodePaths n).length = nodeCount n := by
  induction n using TrieNode.induct with
  | h n ih =>
    rw [nodePaths_eq, nodeCount_eq, List.length_cons, List.length_flatMap]
    generalize List.finRange 256 = l
    have hsum : (l.map (List.length ∘ fun ch =>
        (childPaths (n.children ch)).map fun p => ch :: p)) =
        l.map fun ch => childCount (n.children ch) := by
      apply List.map_congr_left
      intro ch _
      rw [Function.comp_apply, List.length_map]
      cases hch : n.children ch with
      | none => rw [childPaths_none, childCount_none]; rfl
      | some child => rw [childPaths_some, childCount_some, ih ch child hch]
    rw [hsum]
    omega

theorem mem_nodePaths (path : List Byte) :
    ∀ n : TrieNode, path ∈ nodePaths n ↔ ∃ m, walk n path = some m := by
  induction path with
  | nil =>
    intro n
    rw [nodePaths_eq]
    simp [walk_nil]
  | cons c rest ih =>
    intro n
    rw [nodePaths_eq, walk_cons]
    simp only [List.mem_cons, List.mem_flatMap, List.mem_map, List.mem_finRange, true_and,
      List.cons.injEq, false_or, reduceCtorEq]
    constructor
    · rintro ⟨ch, p, hp, rfl, rfl⟩
      cases hch : n.children ch with
      | none => rw [hch, childPaths_none] at hp; cases hp
      | some child =>
        rw [hch, childPaths_some] at hp
        exact (ih child).1 hp
    · intro hw
      cases hch : n.children c with
      | none => simp [hch] at hw
      | some child =>
        simp only [hch] at hw
        exact ⟨c, rest, by rw [hch, childPaths_some]; exact (ih child).2 hw, rfl, rfl⟩

theorem nodup_nodePaths (n : TrieNode) : (nodePaths n).Nodup := by
  induction n using TrieNode.induct with
  | h n ih =>
    rw [nodePaths_eq, List.nodup_cons]
    constructor
    · simp
    · rw [List.nodup_flatMap]
      constructor
      · intro ch _
        apply List.Nodup.map (fun p q hpq => (List.cons.inj hpq).2)
        cases hch : n.children ch with
        | none => rw [childPaths_none]; exact List.nodup_nil
        | some child => rw [childPaths_some]; exact ih ch child hch
      · apply (List.nodup_finRange 256).imp
        intro a b hab
        simp only [Function.onFun]
        rw [List.disjoint_left]
        intro p hpa hpb
        obtain ⟨_, _, rfl⟩ := List.mem_map.1 hpa
        obtain ⟨_, _, heq⟩ := List.mem_map.1 hpb
        exact hab (List.cons.inj heq).1.symm

/-- The nodes below the root of a trie without dangling nodes are counted by
the distinct non-empty prefixes of the stored keys. -/
theorem count_prefixes (n : TrieNode) (hn : NoDangling n) :
    ∃ L : List (List Byte), L.Nodup ∧
      (∀ p, p ∈ L ↔ p ≠ [] ∧ ∃ ext, searchFrom n (p ++ ext) = true) ∧
      L.length + 1 = nodeCount n := by
  refine ⟨(nodePaths n).tail, (nodup_nodePaths n).tail, ?_, ?_⟩
  · intro p
    have hmem := mem_nodePaths p n
    have hnd := nodup_nodePaths n
    rw [nodePaths_eq] at hmem hnd ⊢
    rw [List.tail_cons]
    rw [List.nodup_cons] at hnd
    rw [List.mem_cons] at hmem
    constructor
    · intro hp
      have hne : p ≠ [] := by
        rintro rfl
        exact hnd.1 hp
      exact ⟨hne, (walk_iff_prefix_of_stored n hn p hne).1 (hmem.1 (Or.inr hp))⟩
    · rintro ⟨hne, hext⟩
      rcases hmem.2 ((walk_iff_prefix_of_stored n hn p hne).2 hext) with h | h
      · exact absurd h hne
      · exact h
  · rw [← length_nodePaths, nodePaths_eq]
    simp

/-! ## Trie: the flag returned by `deleteHelper` -/

theorem deleteHelper_flag_stored (g : List Byte) (n : TrieNode)
    (h : (deleteHelper n g).2 = true) : searchFrom n g = true := by
  by_contra hs
  rw [Bool.not_eq_true] at hs
  rw [deleteHelper_absent g n hs] at h
  cases h

theorem deleteHelper_flag_only (g : List Byte) (n : TrieNode)
    (h : (deleteHelper n g).2 = true) (k : List Byte) (hk : searchFrom n k = true) : k = g := by
  obtain ⟨hc, he⟩ := deleteHelper_flag g n h
  have h1 := searchFrom_deleteHelper g n k
  rw [searchFrom_of_empty _ hc he, hk, Bool.and_true] at h1
  by_contra hne
  simp [hne] at h1

theorem deleteHelper_flag_empty (g : List Byte) (n : TrieNode)
    (h : (deleteHelper n g).2 = true) : (deleteHelper n g).1 = emptyNode := by
  obtain ⟨hc, he⟩ := deleteHelper_flag g n h
  rw [← TrieNode.eta (deleteHelper n g).1, he]
  have : (deleteHelper n g).1.children = fun _ => none := funext hc
  rw [this]
  rfl

/-- In a trie without dangling nodes, deleting the only stored key sets the
flag. -/
theorem deleteHelper_only_stored (g : List Byte) :
    ∀ n : TrieNode, NoDangling n → searchFrom n g = true →
      (∀ k, searchFrom n k = true → k = g) → (deleteHelper n g).2 = true := by
  induction g with
  | nil =>
    intro n hn hs honly
    rw [searchFrom_nil] at hs
    have hlen : len n.children = 0 := by
      rw [len_eq_zero_iff]
      intro b
      cases hch : n.children b with
      | none => rfl
      | some child =>
        obtain ⟨hlc, hnc⟩ := (noDangling_iff n).1 hn b child hch
        obtain ⟨ext, hext⟩ := live_has_stored child hlc hnc
        have := honly (b :: ext) (by rw [searchFrom_cons, hch]; exact hext)
        cases this
    rw [deleteHelper]
    simp [hs, hlen]
  | cons c rest ih =>
    intro n hn hs honly
    rw [searchFrom_cons] at hs
    cases hch : n.children c with
    | none => simp [hch] at hs
    | some child =>
      simp only [hch] at hs
      obtain ⟨_, hnc⟩ := (noDangling_iff n).1 hn c child hch
      have honly1 : ∀ k, searchFrom child k = true → k = rest := by
        intro k hk
        have := honly (c :: k) (by rw [searchFrom_cons, hch]; exact hk)
        exact (List.cons.inj this).2
      have hflag := ih child hnc hs honly1
      have hend : n.isEnd = false := by
        by_contra hcon
        rw [Bool.not_eq_false] at hcon
        have := honly [] (by rw [searchFrom_nil]; exact hcon)
        cases this
      have hlen : len (deleteKey n.children c) = 0 := by
        rw [len_eq_zero_iff]
        intro b
        simp only [deleteKey]
        split_ifs with hbc
        · rfl
        · cases hb : n.children b with
          | none => rfl
          | some child1 =>
            obtain ⟨hl1, hn1⟩ := (noDangling_iff n).1 hn b child1 hb
            obtain ⟨ext, hext⟩ := live_has_stored child1 hl1 hn1
            have := honly (b :: ext) (by rw [searchFrom_cons, hb]; exact hext)
            exact absurd (List.cons.inj this).1 hbc
      rw [deleteHelper_cons_some n child c rest hch, if_pos hflag]
      simp only [hlen, hend, beq_self_eq_true, Bool.not_false, Bool.and_self]

/-! ## Trie: what `collectGeohashes` returns on ASCII keys -/

theorem asciiTrie_iff (n : TrieNode) :
    AsciiTrie n ↔ ∀ b child, n.children b = some child → b.val < 0x80 ∧ AsciiTrie child := by
  constructor
  · intro h b child hb
    constructor
    · exact h [b] child (by simp only [walk_cons, hb, walk_nil]) b (by simp)
    · intro path m hw c hc
      exact h (b :: path) m (by simp only [walk_cons, hb]; exact hw) c
        (List.mem_cons_of_mem _ hc)
  · intro h path m hw c hc
    cases path with
    | nil => cases hc
    | cons b rest =>
      rw [walk_cons] at hw
      cases hb : n.children b with
      | none => simp only [hb] at hw; cases hw
      | some child =>
        simp only [hb] at hw
        obtain ⟨hlt, hchild⟩ := h b child hb
        rcases List.mem_cons.1 hc with rfl | hc1
        · exact hlt
        · exact hchild rest m hw c hc1

theorem asciiTrie_emptyNode : AsciiTrie emptyNode := by
  rw [asciiTrie_iff]
  intro b child hb
  cases hb

theorem asciiTrie_insertFrom (g : List Byte) :
    ∀ n : TrieNode, AsciiTrie n → (∀ b ∈ g, b.val < 0x80) → AsciiTrie (insertFrom n g) := by
  induction g with
  | nil =>
    intro n hn _
    rw [asciiTrie_iff] at hn ⊢
    rw [insertFrom, TrieNode.children_mk]
    exact hn
  | cons c rest ih =>
    intro n hn hg
    have hn2 := (asciiTrie_iff n).1 hn
    have hrest : ∀ b ∈ rest, b.val < 0x80 := fun b hb => hg b (List.mem_cons_of_mem _ hb)
    rw [asciiTrie_iff]
    intro b child hb
    rw [insertFrom] at hb
    by_cases hbc : b = c
    · subst hbc
      cases hch : n.children b with
      | none =>
        simp only [hch, TrieNode.children_mk, setKey_same, Option.some.injEq] at hb
        subst hb
        exact ⟨hg b (List.mem_cons_self _ _), ih _ asciiTrie_emptyNode hrest⟩
      | some ch =>
        simp only [hch, TrieNode.children_mk, setKey_same, Option.some.injEq] at hb
        subst hb
        exact ⟨hg b (List.mem_cons_self _ _), ih _ (hn2 b ch hch).2 hrest⟩
    · cases hch : n.children c <;>
        simp only [hch, TrieNode.children_mk, setKey_other _ _ _ _ hbc] at hb <;>
        exact hn2 b child hb

theorem collectChild_none (pfx newCurrent : List Byte) :
    collectChild none pfx newCurrent = [] := by
  rw [collectChild]

/-- On ASCII keys every collected string is `current` followed by a key stored
below the node, and it starts with the filter. -/
theorem collectGeohashes_sound (n : TrieNode) :
    AsciiTrie n → ∀ (pfx current r : List Byte), r ∈ collectGeohashes n pfx current →
      ∃ rest, r = current ++ rest ∧ searchFrom n rest = true ∧ pfx <+: r := by
  induction n using TrieNode.induct with
  | h n ih =>
    intro hn pfx current r hr
    rw [collectGeohashes_eq, List.mem_append] at hr
    rcases hr with hr | hr
    · by_cases hc : (n.isEnd && HasPrefix current pfx) = true
      · rw [if_pos hc, List.mem_singleton] at hr
        rw [Bool.and_eq_true, hasPrefix_iff] at hc
        subst hr
        exact ⟨[], by simp, by rw [searchFrom_nil]; exact hc.1, hc.2⟩
      · rw [if_neg hc] at hr
        cases hr
    · rw [List.mem_flatMap] at hr
      obtain ⟨ch, -, hr⟩ := hr
      cases hch : n.children ch with
      | none => rw [hch, collectChild_none] at hr; cases hr
      | some child =>
        obtain ⟨hlt, hchild⟩ := (asciiTrie_iff n).1 hn ch child hch
        rw [hch, collectChild_some, stringOfByte_ascii ch hlt] at hr
        split_ifs at hr
        · obtain ⟨rest, rfl, hs, hp⟩ := ih ch child hch hchild pfx (current ++ [ch]) r hr
          refine ⟨ch :: rest, by simp, ?_, hp⟩
          rw [searchFrom_cons, hch]
          exact hs
        · cases hr

/-- On ASCII keys no string is collected twice. -/
theorem collectGeohashes_nodup (n : TrieNode) :
    AsciiTrie n → ∀ pfx current : List Byte, (collectGeohashes n pfx current).Nodup := by
  induction n using TrieNode.induct with
  | h n ih =>
    intro hn pfx current
    have hchild : ∀ ch r, r ∈ collectChild (n.children ch) pfx (current ++ stringOfByte ch) →
        ∃ rest, r = current ++ ch :: rest := by
      intro ch r hr
      cases hch : n.children ch with
      | none => rw [hch, collectChild_none] at hr; cases hr
      | some child =>
        obtain ⟨hlt, hc⟩ := (asciiTrie_iff n).1 hn ch child hch
        rw [hch, collectChild_some, stringOfByte_ascii ch hlt] at hr
        split_ifs at hr
        · obtain ⟨rest, rfl, -, -⟩ := collectGeohashes_sound child hc pfx (current ++ [ch]) r hr
          exact ⟨rest, by simp⟩
        · cases hr
    rw [collectGeohashes_eq, List.nodup_append]
    refine ⟨?_, ?_, ?_⟩
    · split_ifs
      · exact List.nodup_singleton _
      · exact List.nodup_nil
    · rw [List.nodup_flatMap]
      constructor
      · intro ch _
        cases hch : n.children ch with
        | none => rw [collectChild_none]; exact List.nodup_nil
        | some child =>
          obtain ⟨hlt, hc⟩ := (asciiTrie_iff n).1 hn ch child hch
          rw [collectChild_some]
          split_ifs
          · exact ih ch child hch hc pfx _
          · exact List.nodup_nil
      · apply (List.nodup_finRange 256).imp
        intro a b hab
        simp only [Function.onFun]
        rw [List.disjoint_left]
        intro r hra hrb
        obtain ⟨ra, rfl⟩ := hchild a r hra
        obtain ⟨rb, hrb2⟩ := hchild b _ hrb
        have := List.append_cancel_left hrb2
        exact hab (List.cons.inj this).1
    · rw [List.disjoint_left]
      intro r hr1 hr2
      rw [List.mem_flatMap] at hr2
      obtain ⟨ch, -, hr2⟩ := hr2
      obtain ⟨rest, rfl⟩ := hchild ch r hr2
      split_ifs at hr1
      · rw [List.mem_singleton] at hr1
        have := congrArg List.length hr1
        simp at this
      · cases hr1

theorem ascii_of_searchFrom (n : TrieNode) (hn : AsciiTrie n) (s : List Byte)
    (hs : searchFrom n s = true) : ∀ b ∈ s, b.val < 0x80 := by
  obtain ⟨m, hm⟩ := walk_of_searchFrom s n [] (by rw [List.append_nil]; exact hs)
  exact hn s m hm

/-- On ASCII keys `RangeQuery` returns, each exactly once, the stored keys that
start with the common prefix of its arguments. -/
theorem rangeQuery_ascii (t : GeoHashTrie) (hn : AsciiTrie t.root) (sw ne : List Byte) :
    (t.RangeQuery sw ne).Nodup ∧
      ∀ s, s ∈ t.RangeQuery sw ne ↔ (t.Search s = true ∧ commonPrefix sw ne <+: s) := by
  refine ⟨collectGeohashes_nodup t.root hn _ _, ?_⟩
  intro s
  constructor
  · intro hs
    obtain ⟨rest, hr, hsr, hp⟩ := collectGeohashes_sound t.root hn _ _ s hs
    rw [List.nil_append] at hr
    subst hr
    exact ⟨hsr, hp⟩
  · rintro ⟨hs, hp⟩
    have h := mem_collectGeohashes s t.root (commonPrefix sw ne) [] hs
      (ascii_of_searchFrom t.root hn s hs) (by rw [List.nil_append]; exact hp)
    rw [List.nil_append] at h
    exact h

theorem asciiTrie_deleteHelper (g : List Byte) :
    ∀ n : TrieNode, AsciiTrie n → AsciiTrie (deleteHelper n g).1 := by
  induction g with
  | nil =>
    intro n hn
    rw [deleteHelper]
    split_ifs
    · exact hn
    · rw [asciiTrie_iff] at hn ⊢
      rw [TrieNode.children_mk]
      exact hn
  | cons c rest ih =>
    intro n hn
    have hn2 := (asciiTrie_iff n).1 hn
    cases hch : n.children c with
    | none =>
      rw [deleteHelper, hch]
      exact hn
    | some child =>
      rw [deleteHelper_cons_some n child c rest hch]
      split_ifs
      · rw [asciiTrie_iff]
        intro b ch hb
        rw [TrieNode.children_mk] at hb
        simp only [deleteKey] at hb
        split_ifs at hb
        exact hn2 b ch hb
      · rw [asciiTrie_iff]
        intro b ch hb
        rw [TrieNode.children_mk] at hb
        by_cases hbc : b = c
        · subst hbc
          rw [setKey_same] at hb
          cases hb
          exact ⟨(hn2 b child hch).1, ih child (hn2 b child hch).2⟩
        · rw [setKey_other _ _ _ _ hbc] at hb
          exact hn2 b ch hb

theorem base32_ascii (b : Byte) (hb : b ∈ BASE_32) : b.val < 0x80 := by
  obtain ⟨_, -, -, -, hlt⟩ := base32_mem b hb
  exact hlt

theorem asciiTrie_of_reachableOnGeohashes (t : GeoHashTrie) (h : ReachableOnGeohashes t) :
    AsciiTrie t.root := by
  induction h with
  | new => exact asciiTrie_emptyNode
  | insert t g hg _ ih =>
    exact asciiTrie_insertFrom g _ ih (fun b hb => base32_ascii b (hg b hb))
  | delete t g _ ih => exact asciiTrie_deleteHelper g _ ih

theorem loadPlaces_cons (place : Location) (rest : List Location) (t : GeoHashTrie)
    (m : List Byte → Option (List Byte)) :
    loadPlaces (place :: rest) t m =
      (EncodeGeoHash place.Latitude place.Longitude PRECISION).bind fun geohash =>
        loadPlaces rest (t.Insert geohash) (setName m geohash place.Name) := by
  rw [loadPlaces]

theorem encode_precision_some (lat lon : ℚ) : ∃ g, EncodeGeoHash lat lon PRECISION = some g := by
  obtain ⟨g, hg, -, -⟩ := encodeChars_take lat lon PRECISION.toNat encodeInit rfl
  exact ⟨g, by simp only [EncodeGeoHash, if_neg (show ¬ PRECISION < 0 by decide), hg]⟩

/-- The loop of `loadDataInTrie` succeeds; it adds the geohashes of the places
to the trie and to the keys of the name map, and removes nothing. -/
theorem loadPlaces_spec (places : List Location) :
    ∀ (t : GeoHashTrie) (m : List Byte → Option (List Byte)),
      ∃ t1 m1, loadPlaces places t m = some (t1, m1) ∧
        (∀ h, t1.Search h = true ↔
          (t.Search h = true ∨
            ∃ place ∈ places, EncodeGeoHash place.Latitude place.Longitude PRECISION = some h)) ∧
        (∀ k, (m1 k).isSome = true ↔
          ((m k).isSome = true ∨
            ∃ place ∈ places,
              EncodeGeoHash place.Latitude place.Longitude PRECISION = some k)) := by
  induction places with
  | nil =>
    intro t m
    exact ⟨t, m, by rw [loadPlaces], by simp, by simp⟩
  | cons place rest ih =>
    intro t m
    obtain ⟨g, hg⟩ := encode_precision_some place.Latitude place.Longitude
    obtain ⟨t1, m1, hload, ht, hm⟩ := ih (t.Insert g) (setName m g place.Name)
    refine ⟨t1, m1, by rw [loadPlaces_cons, hg, Option.some_bind, hload], ?_, ?_⟩
    · intro h
      rw [ht]
      simp only [GeoHashTrie.Search, GeoHashTrie.Insert, searchFrom_insertFrom,
        Bool.or_eq_true, decide_eq_true_eq, List.mem_cons, exists_eq_or_imp, hg,
        Option.some.injEq]
      constructor
      · rintro ((h1 | h1) | h1)
        · exact Or.inr (Or.inl h1.symm)
        · exact Or.inl h1
        · exact Or.inr (Or.inr h1)
      · rintro (h1 | h1 | h1)
        · exact Or.inl (Or.inr h1)
        · exact Or.inl (Or.inl h1.symm)
        · exact Or.inr h1
    · intro k
      rw [hm]
      have hset : (setName m g place.Name k).isSome = true ↔ (k = g ∨ (m k).isSome = true) := by
        simp only [setName]
        split_ifs with hk
        · simp [hk]
        · simp [hk]
      rw [hset]
      simp only [List.mem_cons, exists_eq_or_imp, hg, Option.some.injEq]
      constructor
      · rintro ((h1 | h1) | h1)
        · exact Or.inr (Or.inl h1.symm)
        · exact Or.inl h1
        · exact Or.inr (Or.inr h1)
      · rintro (h1 | h1 | h1)
        · exact Or.inl (Or.inr h1)
        · exact Or.inl (Or.inl h1.symm)
        · exact Or.inr h1

/-! ## The encoder over an ordered field -/

theorem InField.encodeBits_succ_field {F : Type} [LinearOrderedField F] (lat lon : F) (n : Nat)
    (s : InField.EncodeState F) :
    InField.encodeBits lat lon (n + 1) s =
      InField.encodeBits lat lon n (InField.encodeBit lat lon s) := by
  rw [InField.encodeBits]

theorem InField.encodeChars_succ_field {F : Type} [LinearOrderedField F] (lat lon : F) (n : Nat)
    (s : InField.EncodeState F) :
    InField.encodeChars lat lon (n + 1) s =
      (BASE_32[(InField.encodeBits lat lon 5 s).hash_value]?).bind fun c =>
        (InField.encodeChars lat lon n
          { InField.encodeBits lat lon 5 s with hash_value := 0 }).map fun cs => c :: cs := by
  rw [InField.encodeChars]

theorem InField.encodeBit_hash_div_field {F : Type} [LinearOrderedField F] (lat lon : F)
    (s : InField.EncodeState F) :
    (InField.encodeBit lat lon s).hash_value / 2 = s.hash_value := by
  unfold InField.encodeBit
  simp only [Nat.shiftLeft_eq]
  split_ifs <;> simp <;> omega

theorem InField.encodeBits_hash_div_field {F : Type} [LinearOrderedField F] (lat lon : F) (n : Nat) :
    ∀ s : InField.EncodeState F,
      (InField.encodeBits lat lon n s).hash_value / 2 ^ n = s.hash_value := by
  induction n with
  | zero => intro s; simp [InField.encodeBits]
  | succ n ih =>
    intro s
    rw [InField.encodeBits_succ_field, pow_succ, ← Nat.div_div_eq_div_mul, ih,
      InField.encodeBit_hash_div_field]

theorem InField.encodeBit_hash_le_field {F : Type} [LinearOrderedField F] (lat lon : F)
    (s : InField.EncodeState F) :
    (InField.encodeBit lat lon s).hash_value ≤ 2 * s.hash_value + 1 := by
  unfold InField.encodeBit
  simp only [Nat.shiftLeft_eq]
  split_ifs <;> simp <;> omega

theorem InField.encodeBits_hash_lt_field {F : Type} [LinearOrderedField F] (lat lon : F) (n : Nat) :
    ∀ s : InField.EncodeState F,
      (InField.encodeBits lat lon n s).hash_value < 2 ^ n * (s.hash_value + 1) := by
  induction n with
  | zero => intro s; simp [InField.encodeBits]
  | succ n ih =>
    intro s
    have h1 := ih (InField.encodeBit lat lon s)
    have h2 := InField.encodeBit_hash_le_field lat lon s
    rw [InField.encodeBits_succ_field]
    calc (InField.encodeBits lat lon n (InField.encodeBit lat lon s)).hash_value
        < 2 ^ n * ((InField.encodeBit lat lon s).hash_value + 1) := h1
      _ ≤ 2 ^ n * (2 * s.hash_value + 1 + 1) := Nat.mul_le_mul_left _ (by omega)
      _ = 2 ^ (n + 1) * (s.hash_value + 1) := by ring

/-- Over any ordered field the outer loop never indexes out of range. -/
theorem InField.encodeChars_some {F : Type} [LinearOrderedField F] (lat lon : F) (n : Nat) :
    ∀ s : InField.EncodeState F, s.hash_value = 0 →
      ∃ cs, InField.encodeChars lat lon n s = some cs := by
  induction n with
  | zero => intro s _; exact ⟨[], by rw [InField.encodeChars]⟩
  | succ n ih =>
    intro s h
    have hlt : (InField.encodeBits lat lon 5 s).hash_value < BASE_32.length := by
      have := InField.encodeBits_hash_lt_field lat lon 5 s
      rw [h] at this
      rw [BASE_32_length]
      simpa using this
    obtain ⟨c, hget⟩ : ∃ c, BASE_32[(InField.encodeBits lat lon 5 s).hash_value]? = some c :=
      ⟨_, List.getElem?_eq_getElem hlt⟩
    obtain ⟨cs, hcs⟩ := ih { InField.encodeBits lat lon 5 s with hash_value := 0 } rfl
    exact ⟨c :: cs, by rw [InField.encodeChars_succ_field, hget, Option.some_bind, hcs,
      Option.map_some']⟩

theorem InField.encodeGeoHash_some {F : Type} [LinearOrderedField F] (lat lon : F) (p : Int)
    (hp : 0 ≤ p) : ∃ g, InField.EncodeGeoHash lat lon p = some g := by
  obtain ⟨g, hg⟩ := InField.encodeChars_some lat lon p.toNat InField.encodeInit rfl
  exact ⟨g, by simp only [InField.EncodeGeoHash, if_neg (show ¬ p < 0 by omega), hg]⟩

theorem InField.encodeChars_eq_some_field {F : Type} [LinearOrderedField F] (lat lon : F) (n : Nat)
    (s : InField.EncodeState F) (cs : List Byte)
    (h : InField.encodeChars lat lon (n + 1) s = some cs) :
    ∃ c cs1, BASE_32[(InField.encodeBits lat lon 5 s).hash_value]? = some c ∧
      InField.encodeChars lat lon n { InField.encodeBits lat lon 5 s with hash_value := 0 } =
        some cs1 ∧
      cs = c :: cs1 := by
  rw [InField.encodeChars_succ_field] at h
  cases hc : BASE_32[(InField.encodeBits lat lon 5 s).hash_value]? with
  | none => rw [hc] at h; cases h
  | some c =>
    rw [hc, Option.some_bind] at h
    cases hcs : InField.encodeChars lat lon n
        { InField.encodeBits lat lon 5 s with hash_value := 0 } with
    | none => rw [hcs] at h; cases h
    | some cs1 =>
      rw [hcs, Option.map_some'] at h
      exact ⟨c, cs1, rfl, rfl, (Option.some.inj h).symm⟩

theorem InField.encodeBit_squeeze_field {F : Type} [LinearOrderedField F]
    (swLat swLon neLat neLon lat lon : F) (s : InField.EncodeState F)
    (h3 : swLat ≤ lat) (h4 : lat ≤ neLat) (h5 : swLon ≤ lon) (h6 : lon ≤ neLon)
    (hh : (InField.encodeBit swLat swLon s).hash_value =
      (InField.encodeBit neLat neLon s).hash_value) :
    InField.encodeBit lat lon s = InField.encodeBit swLat swLon s ∧
      InField.encodeBit neLat neLon s = InField.encodeBit swLat swLon s := by
  unfold InField.encodeBit at hh ⊢
  simp only [Nat.shiftLeft_eq, pow_one, gt_iff_lt] at hh ⊢
  split_ifs at hh ⊢ <;>
    first
    | exact ⟨rfl, rfl⟩
    | (exfalso; simp only [] at hh; omega)
    | (exfalso; linarith)

theorem InField.encodeBits_squeeze_field {F : Type} [LinearOrderedField F]
    (swLat swLon neLat neLon lat lon : F)
    (h3 : swLat ≤ lat) (h4 : lat ≤ neLat) (h5 : swLon ≤ lon) (h6 : lon ≤ neLon) (n : Nat) :
    ∀ s : InField.EncodeState F,
      (InField.encodeBits swLat swLon n s).hash_value =
        (InField.encodeBits neLat neLon n s).hash_value →
      InField.encodeBits lat lon n s = InField.encodeBits swLat swLon n s ∧
        InField.encodeBits neLat neLon n s = InField.encodeBits swLat swLon n s := by
  induction n with
  | zero => intro s _; exact ⟨rfl, rfl⟩
  | succ n ih =>
    intro s hh
    rw [InField.encodeBits_succ_field, InField.encodeBits_succ_field] at hh
    have h1 : (InField.encodeBit swLat swLon s).hash_value =
        (InField.encodeBit neLat neLon s).hash_value := by
      rw [← InField.encodeBits_hash_div_field swLat swLon n (InField.encodeBit swLat swLon s), hh,
        InField.encodeBits_hash_div_field]
    obtain ⟨e1, e2⟩ :=
      InField.encodeBit_squeeze_field swLat swLon neLat neLon lat lon s h3 h4 h5 h6 h1
    rw [InField.encodeBits_succ_field, InField.encodeBits_succ_field, InField.encodeBits_succ_field, e1, e2]
    rw [e2] at hh
    exact ih _ hh

/-- Over any ordered field, the bytes written for a point of the box start with
the common prefix of the bytes written for the two corners. -/
theorem InField.commonPrefix_encodeChars_field {F : Type} [LinearOrderedField F]
    (swLat swLon neLat neLon lat lon : F)
    (h3 : swLat ≤ lat) (h4 : lat ≤ neLat) (h5 : swLon ≤ lon) (h6 : lon ≤ neLon) (n : Nat) :
    ∀ (s : InField.EncodeState F) (a b g : List Byte),
      InField.encodeChars swLat swLon n s = some a →
      InField.encodeChars neLat neLon n s = some b →
      InField.encodeChars lat lon n s = some g → commonPrefix a b <+: g := by
  induction n with
  | zero =>
    intro s a b g ha _ _
    rw [InField.encodeChars] at ha
    cases ha
    rw [commonPrefix_nil]
    exact List.nil_prefix
  | succ n ih =>
    intro s a b g ha hb hg
    obtain ⟨ca, a1, hca, ha1, rfl⟩ := InField.encodeChars_eq_some_field _ _ n s a ha
    obtain ⟨cb, b1, hcb, hb1, rfl⟩ := InField.encodeChars_eq_some_field _ _ n s b hb
    obtain ⟨cg, g1, hcg, hg1, rfl⟩ := InField.encodeChars_eq_some_field _ _ n s g hg
    rw [commonPrefix_cons]
    by_cases hab : ca = cb
    · rw [if_pos hab]
      have hh : (InField.encodeBits swLat swLon 5 s).hash_value =
          (InField.encodeBits neLat neLon 5 s).hash_value := by
        have i1 := (base32_getElem _ ca hca).1
        have i2 := (base32_getElem _ cb hcb).1
        rw [hab, i2] at i1
        exact (Int.ofNat_inj.1 i1).symm
      obtain ⟨e1, e2⟩ :=
        InField.encodeBits_squeeze_field swLat swLon neLat neLon lat lon h3 h4 h5 h6 5 s hh
      rw [e1] at hcg hg1
      rw [e2] at hb1
      rw [hca] at hcg
      cases hcg
      exact (List.cons_prefix_cons).2 ⟨rfl, ih _ a1 b1 g1 ha1 hb1 hg1⟩
    · rw [if_neg hab]
      exact List.nil_prefix

/-! ## The encoder over an ordered field and the rational encoder -/

theorem encodeBit_cast {F : Type} [LinearOrderedField F] (lat lon : ℚ)
    (s : EncodeState) :
    InField.encodeBit (lat : F) (lon : F) (castState s) =
      castState (encodeBit lat lon s) := by
  have hlon : ((lon : F) > ((s.lon_min : F) + (s.lon_max : F)) / 2) ↔
      lon > (s.lon_min + s.lon_max) / 2 := by
    have : ((s.lon_min : F) + (s.lon_max : F)) / 2 = (((s.lon_min + s.lon_max) / 2 : ℚ) : F) := by
      push_cast; rfl
    rw [this, gt_iff_lt, gt_iff_lt, Rat.cast_lt]
  have hlat : ((lat : F) > ((s.lat_min : F) + (s.lat_max : F)) / 2) ↔
      lat > (s.lat_min + s.lat_max) / 2 := by
    have : ((s.lat_min : F) + (s.lat_max : F)) / 2 = (((s.lat_min + s.lat_max) / 2 : ℚ) : F) := by
      push_cast; rfl
    rw [this, gt_iff_lt, gt_iff_lt, Rat.cast_lt]
  unfold InField.encodeBit encodeBit
  simp only [castState, hlon, hlat]
  split_ifs <;> simp [castState]

theorem encodeBits_cast {F : Type} [LinearOrderedField F] (lat lon : ℚ) (n : Nat) :
    ∀ s : EncodeState,
      InField.encodeBits (lat : F) (lon : F) n (castState s) =
        castState (encodeBits lat lon n s) := by
  induction n with
  | zero => intro s; rfl
  | succ n ih =>
    intro s
    rw [InField.encodeBits_succ_field, encodeBits_succ, encodeBit_cast, ih]

theorem castState_hash {F : Type} [LinearOrderedField F] (s : EncodeState) :
    (castState s : InField.EncodeState F).hash_value = s.hash_value := rfl

theorem castState_reset {F : Type} [LinearOrderedField F] (s : EncodeState) :
    ({ (castState s : InField.EncodeState F) with hash_value := 0 } :
        InField.EncodeState F) =
      castState { s with hash_value := 0 } := rfl

theorem encodeChars_cast {F : Type} [LinearOrderedField F] (lat lon : ℚ) (n : Nat) :
    ∀ s : EncodeState,
      InField.encodeChars (lat : F) (lon : F) n (castState s) =
        encodeChars lat lon n s := by
  induction n with
  | zero => intro s; rw [InField.encodeChars, encodeChars]
  | succ n ih =>
    intro s
    rw [InField.encodeChars_succ_field, encodeChars_succ, encodeBits_cast,
      castState_reset, ih, castState_hash]

/-- On rational coordinates the encoder over `F` is `EncodeGeoHash`. -/
theorem encodeGeoHash_cast {F : Type} [LinearOrderedField F] (lat lon : ℚ) (p : Int) :
    InField.EncodeGeoHash (lat : F) (lon : F) p = EncodeGeoHash lat lon p := by
  have h : (InField.encodeInit : InField.EncodeState F) = castState encodeInit := rfl
  unfold InField.EncodeGeoHash EncodeGeoHash
  rw [h, encodeChars_cast]

/-! ## The nearby query: candidates -/

theorem encodeGeoHash_chars (lat lon : ℚ) (p : Nat) (g : List Byte)
    (h : EncodeGeoHash lat lon (p : Int) = some g) :
    encodeChars lat lon p encodeInit = some g := by
  simpa only [EncodeGeoHash, if_neg (show ¬ (p : Int) < 0 by omega), Int.toNat_ofNat] using h

theorem InField.encodeGeoHash_chars_field {F : Type} [LinearOrderedField F] (lat lon : F) (p : Nat)
    (g : List Byte) (h : InField.EncodeGeoHash lat lon (p : Int) = some g) :
    InField.encodeChars lat lon p InField.encodeInit = some g := by
  simpa only [InField.EncodeGeoHash, if_neg (show ¬ (p : Int) < 0 by omega),
    Int.toNat_ofNat] using h

/-- `FindNearby` returns the range query on the geohashes of the two corners
of its box, which both exist. -/
theorem findNearby_some {F : Type} [LinearOrderedField F] (math : Math F) (t : GeoHashTrie)
    (g : List Byte) (r : F) :
    ∃ sw ne,
      InField.EncodeGeoHash
        ((((DecodeGeoHash g).1 : ℚ) : F) - r / 111)
        ((((DecodeGeoHash g).2 : ℚ) : F) -
          r / (111 * math.Cos ((((DecodeGeoHash g).1 : ℚ) : F) * math.Pi / 180)))
        (g.length : Int) = some sw ∧
      InField.EncodeGeoHash
        ((((DecodeGeoHash g).1 : ℚ) : F) + r / 111)
        ((((DecodeGeoHash g).2 : ℚ) : F) +
          r / (111 * math.Cos ((((DecodeGeoHash g).1 : ℚ) : F) * math.Pi / 180)))
        (g.length : Int) = some ne ∧
      t.FindNearby math g r = some (t.RangeQuery sw ne) := by
  obtain ⟨sw, hsw⟩ := InField.encodeGeoHash_some
    ((((DecodeGeoHash g).1 : ℚ) : F) - r / 111)
    ((((DecodeGeoHash g).2 : ℚ) : F) -
      r / (111 * math.Cos ((((DecodeGeoHash g).1 : ℚ) : F) * math.Pi / 180)))
    (g.length : Int) (by omega)
  obtain ⟨ne, hne⟩ := InField.encodeGeoHash_some
    ((((DecodeGeoHash g).1 : ℚ) : F) + r / 111)
    ((((DecodeGeoHash g).2 : ℚ) : F) +
      r / (111 * math.Cos ((((DecodeGeoHash g).1 : ℚ) : F) * math.Pi / 180)))
    (g.length : Int) (by omega)
  refine ⟨sw, ne, hsw, hne, ?_⟩
  simp only [GeoHashTrie.FindNearby, hsw, hne, Option.some_bind]

/-- A stored geohash of a point that lies within `r / 111` degrees of the
decoded centre in both coordinates is among the candidates of `FindNearby`,
provided the cosine of the centre latitude is positive and at most 1. -/
theorem mem_findNearby {F : Type} [LinearOrderedField F] (math : Math F) (t : GeoHashTrie)
    (g : List Byte) (r : F) (plat plon : ℚ) (s : List Byte) (places : List (List Byte))
    (hs : EncodeGeoHash plat plon (g.length : Int) = some s) (hstored : t.Search s = true)
    (hcos0 : 0 < math.Cos ((((DecodeGeoHash g).1 : ℚ) : F) * math.Pi / 180))
    (hcos1 : math.Cos ((((DecodeGeoHash g).1 : ℚ) : F) * math.Pi / 180) ≤ 1)
    (hr : 0 ≤ r)
    (hlat : |(plat : F) - (((DecodeGeoHash g).1 : ℚ) : F)| ≤ r / 111)
    (hlon : |(plon : F) - (((DecodeGeoHash g).2 : ℚ) : F)| ≤ r / 111)
    (hplaces : t.FindNearby math g r = some places) : s ∈ places := by
  obtain ⟨sw, ne, hsw, hne, hfn⟩ := findNearby_some math t g r
  rw [hfn] at hplaces
  cases hplaces
  have hcsw := InField.encodeGeoHash_chars_field _ _ g.length sw hsw
  have hcne := InField.encodeGeoHash_chars_field _ _ g.length ne hne
  have hcs := encodeGeoHash_chars plat plon g.length s hs
  have hcast : InField.encodeChars (plat : F) (plon : F) g.length InField.encodeInit = some s := by
    have h : (InField.encodeInit : InField.EncodeState F) = castState encodeInit := rfl
    rw [h, encodeChars_cast]
    exact hcs
  have hdelta : r / 111 ≤
      r / (111 * math.Cos ((((DecodeGeoHash g).1 : ℚ) : F) * math.Pi / 180)) := by
    apply div_le_div_of_nonneg_left hr (by positivity)
    nlinarith
  obtain ⟨hlat1, hlat2⟩ := abs_le.1 hlat
  obtain ⟨hlon1, hlon2⟩ := abs_le.1 hlon
  have hpre := InField.commonPrefix_encodeChars_field _ _ _ _ (plat : F) (plon : F)
    (by linarith) (by linarith) (by linarith) (by linarith)
    g.length InField.encodeInit sw ne s hcsw hcne hcast
  have h := mem_collectGeohashes s t.root (commonPrefix sw ne) [] hstored
    (encodeChars_ascii plat plon g.length encodeInit s hcs)
    (by rw [List.nil_append]; exact hpre)
  rw [List.nil_append] at h
  exact h

/-- The candidates of `FindNearby` on a trie of geohashes are stored geohashes,
without duplicates. -/
theorem findNearby_sound {F : Type} [LinearOrderedField F] (math : Math F) (t : GeoHashTrie)
    (ht : AsciiTrie t.root) (g : List Byte) (r : F) (places : List (List Byte))
    (hplaces : t.FindNearby math g r = some places) :
    places.Nodup ∧ ∀ s ∈ places, t.Search s = true := by
  obtain ⟨sw, ne, -, -, hfn⟩ := findNearby_some math t g r
  rw [hfn] at hplaces
  cases hplaces
  obtain ⟨hnd, hmem⟩ := rangeQuery_ascii t ht sw ne
  exact ⟨hnd, fun s hs => ((hmem s).1 hs).1⟩

/-! ## The nearby query: the handler -/

theorem findNearByHandler_eq {F : Type} [LinearOrderedField F] (math : Math F) (st : Globals)
    (t : GeoHashTrie) (lati long radius : F) (g : List Byte) (places : List (List Byte))
    (ht : st.trie = some t) (hg : InField.EncodeGeoHash lati long PRECISION = some g)
    (hplaces : t.FindNearby math g radius = some places) :
    FindNearByHandler math st lati long radius =
      some (places.filterMap (nearbyLocation math st lati long radius)) := by
  simp only [FindNearByHandler, hg, ht, hplaces, Option.some_bind, Option.map_some']

theorem filterMap_eq_singleton {α β : Type} (f : α → Option β) (a : α) (b : β) (l : List α)
    (hnd : l.Nodup) (ha : a ∈ l) (hfa : f a = some b) (hf : ∀ x ∈ l, x ≠ a → f x = none) :
    l.filterMap f = [b] := by
  induction l with
  | nil => cases ha
  | cons x l ih =>
    rw [List.nodup_cons] at hnd
    rcases List.mem_cons.1 ha with rfl | hal
    · have hrest : l.filterMap f = [] := by
        rw [List.filterMap_eq_nil_iff]
        intro y hy
        exact hf y (List.mem_cons_of_mem _ hy) (fun h => hnd.1 (h ▸ hy))
      rw [List.filterMap_cons_some hfa, hrest]
    · have hxa : x ≠ a := fun h => hnd.1 (h ▸ hal)
      rw [List.filterMap_cons_none (hf x (List.mem_cons_self _ _) hxa)]
      exact ih hnd.2 hal (fun y hy => hf y (List.mem_cons_of_mem _ hy))

/-! ## The distance over the real numbers -/

/-- The angle of a point of the unit circle in the first quadrant is between its
sine and eleven tenths of it. -/
theorem arg_bounds (a : ℝ) (h0 : 0 ≤ a) (h1 : a ≤ 1 / 4) :
    √a ≤ Complex.arg ⟨√(1 - a), √a⟩ ∧ Complex.arg ⟨√(1 - a), √a⟩ ≤ 11 / 10 * √a := by
  have hs0 : 0 ≤ √a := Real.sqrt_nonneg a
  have hs1 : √a ≤ 1 / 2 := by
    rw [show (1 / 2 : ℝ) = √(1 / 4) by
      rw [show (1 / 4 : ℝ) = (1 / 2) ^ 2 by norm_num, Real.sqrt_sq (by norm_num)]]
    exact Real.sqrt_le_sqrt h1
  have hsq : √a ^ 2 = a := Real.sq_sqrt h0
  have habs : Complex.abs ⟨√(1 - a), √a⟩ = 1 := by
    rw [Complex.abs_apply, Complex.normSq_mk, ← sq, ← sq, Real.sq_sqrt (by linarith), hsq]
    simp
  have harg : Complex.arg ⟨√(1 - a), √a⟩ = Real.arcsin (√a) := by
    rw [Complex.arg_of_re_nonneg (by exact Real.sqrt_nonneg _), habs]
    simp
  have hpi : (3 : ℝ) < Real.pi := Real.pi_gt_three
  rw [harg]
  constructor
  · rw [Real.le_arcsin_iff_sin_le ⟨by linarith, by linarith⟩ ⟨by linarith, by linarith⟩]
    exact Real.sin_le hs0
  · rw [Real.arcsin_le_iff_le_sin ⟨by linarith, by linarith⟩
      ⟨by nlinarith, by nlinarith⟩]
    rcases hs0.eq_or_lt with h | h
    · rw [← h]; simp
    · have hx : 0 < 11 / 10 * √a := by positivity
      have := Real.sin_gt_sub_cube hx (by linarith)
      have hcube : (11 / 10 * √a) ^ 3 / 4 ≤ 1 / 10 * √a := by
        have : (11 / 10 * √a) ^ 3 / 4 = (1331 / 4000 * √a ^ 2) * √a := by ring
        rw [this, hsq]
        apply mul_le_mul_of_nonneg_right _ hs0
        linarith
      linarith

/-- The haversine term of `CalculateDistance` over the reals. -/
theorem haversine_bounds (lat1 lon1 lat2 lon2 : ℝ)
    (h1 : -90 ≤ lat1) (h2 : lat1 ≤ 90) (h3 : -90 ≤ lat2) (h4 : lat2 ≤ 90) :
    Real.sin ((lat2 - lat1) * (Real.pi / 180) / 2) ^ 2 ≤
        Real.sin ((lat2 - lat1) * (Real.pi / 180) / 2) *
            Real.sin ((lat2 - lat1) * (Real.pi / 180) / 2) +
          Real.cos (lat1 * Real.pi / 180) * Real.cos (lat2 * Real.pi / 180) *
            Real.sin ((lon2 - lon1) * (Real.pi / 180) / 2) *
            Real.sin ((lon2 - lon1) * (Real.pi / 180) / 2) ∧
      Real.sin ((lat2 - lat1) * (Real.pi / 180) / 2) *
            Real.sin ((lat2 - lat1) * (Real.pi / 180) / 2) +
          Real.cos (lat1 * Real.pi / 180) * Real.cos (lat2 * Real.pi / 180) *
            Real.sin ((lon2 - lon1) * (Real.pi / 180) / 2) *
            Real.sin ((lon2 - lon1) * (Real.pi / 180) / 2) ≤
        ((lat2 - lat1) * (Real.pi / 180) / 2) ^ 2 + ((lon2 - lon1) * (Real.pi / 180) / 2) ^ 2 := by
  have hpi := Real.pi_pos
  have hc1 : 0 ≤ Real.cos (lat1 * Real.pi / 180) :=
    Real.cos_nonneg_of_mem_Icc ⟨by nlinarith, by nlinarith⟩
  have hc2 : 0 ≤ Real.cos (lat2 * Real.pi / 180) :=
    Real.cos_nonneg_of_mem_Icc ⟨by nlinarith, by nlinarith⟩
  have hc1' := Real.cos_le_one (lat1 * Real.pi / 180)
  have hc2' := Real.cos_le_one (lat2 * Real.pi / 180)
  have hcc0 : 0 ≤ Real.cos (lat1 * Real.pi / 180) * Real.cos (lat2 * Real.pi / 180) :=
    mul_nonneg hc1 hc2
  have hcc1 : Real.cos (lat1 * Real.pi / 180) * Real.cos (lat2 * Real.pi / 180) ≤ 1 := by
    nlinarith
  have hsx := @Real.sin_sq_le_sq ((lat2 - lat1) * (Real.pi / 180) / 2)
  have hsy := @Real.sin_sq_le_sq ((lon2 - lon1) * (Real.pi / 180) / 2)
  have hy0 := sq_nonneg (Real.sin ((lon2 - lon1) * (Real.pi / 180) / 2))
  constructor
  · nlinarith
  · nlinarith

theorem calculateDistance_real (lat1 lon1 lat2 lon2 : ℝ) :
    CalculateDistance
        (⟨Real.pi, Real.sin, Real.cos, Real.sqrt, fun y x => Complex.arg ⟨x, y⟩⟩ : Math ℝ)
        lat1 lon1 lat2 lon2 =
      6371 * (2 * Complex.arg
        ⟨√(1 - (Real.sin ((lat2 - lat1) * (Real.pi / 180) / 2) *
            Real.sin ((lat2 - lat1) * (Real.pi / 180) / 2) +
          Real.cos (lat1 * Real.pi / 180) * Real.cos (lat2 * Real.pi / 180) *
            Real.sin ((lon2 - lon1) * (Real.pi / 180) / 2) *
            Real.sin ((lon2 - lon1) * (Real.pi / 180) / 2))),
         √(Real.sin ((lat2 - lat1) * (Real.pi / 180) / 2) *
            Real.sin ((lat2 - lat1) * (Real.pi / 180) / 2) +
          Real.cos (lat1 * Real.pi / 180) * Real.cos (lat2 * Real.pi / 180) *
            Real.sin ((lon2 - lon1) * (Real.pi / 180) / 2) *
            Real.sin ((lon2 - lon1) * (Real.pi / 180) / 2))⟩) := rfl

/-- An upper bound on the real distance from bounds on the coordinate
differences. -/
theorem calculateDistance_le (lat1 lon1 lat2 lon2 e1 e2 R : ℝ)
    (h1 : -90 ≤ lat1) (h2 : lat1 ≤ 90) (h3 : -90 ≤ lat2) (h4 : lat2 ≤ 90)
    (he1 : |lat2 - lat1| ≤ e1) (he2 : |lon2 - lon1| ≤ e2) (hR : 0 ≤ R)
    (hnum : (e1 * (315 / 36000)) ^ 2 + (e2 * (315 / 36000)) ^ 2 ≤ (R / 14017) ^ 2)
    (hsmall : (R / 14017) ^ 2 ≤ 1 / 4) :
    CalculateDistance
        (⟨Real.pi, Real.sin, Real.cos, Real.sqrt, fun y x => Complex.arg ⟨x, y⟩⟩ : Math ℝ)
        lat1 lon1 lat2 lon2 ≤ R := by
  rw [calculateDistance_real]
  obtain ⟨hlo, hhi⟩ := haversine_bounds lat1 lon1 lat2 lon2 h1 h2 h3 h4
  set A := Real.sin ((lat2 - lat1) * (Real.pi / 180) / 2) *
            Real.sin ((lat2 - lat1) * (Real.pi / 180) / 2) +
          Real.cos (lat1 * Real.pi / 180) * Real.cos (lat2 * Real.pi / 180) *
            Real.sin ((lon2 - lon1) * (Real.pi / 180) / 2) *
            Real.sin ((lon2 - lon1) * (Real.pi / 180) / 2) with hA
  have hpi0 := Real.pi_pos
  have hpi := Real.pi_lt_d2
  have hA0 : 0 ≤ A := le_trans (sq_nonneg _) hlo
  have hX : ((lat2 - lat1) * (Real.pi / 180) / 2) ^ 2 ≤ (e1 * (315 / 36000)) ^ 2 := by
    rw [← sq_abs ((lat2 - lat1) * (Real.pi / 180) / 2)]
    have : |(lat2 - lat1) * (Real.pi / 180) / 2| = |lat2 - lat1| * (Real.pi / 360) := by
      rw [abs_div, abs_mul, abs_of_pos (by positivity : (0 : ℝ) < Real.pi / 180),
        abs_of_pos (by norm_num : (0 : ℝ) < 2)]
      ring
    rw [this]
    have hnn := abs_nonneg (lat2 - lat1)
    apply pow_le_pow_left₀ (by positivity)
    calc |lat2 - lat1| * (Real.pi / 360) ≤ e1 * (Real.pi / 360) :=
          mul_le_mul_of_nonneg_right he1 (by positivity)
      _ ≤ e1 * (315 / 36000) := by
          apply mul_le_mul_of_nonneg_left _ (le_trans hnn he1)
          linarith
  have hY : ((lon2 - lon1) * (Real.pi / 180) / 2) ^ 2 ≤ (e2 * (315 / 36000)) ^ 2 := by
    rw [← sq_abs ((lon2 - lon1) * (Real.pi / 180) / 2)]
    have : |(lon2 - lon1) * (Real.pi / 180) / 2| = |lon2 - lon1| * (Real.pi / 360) := by
      rw [abs_div, abs_mul, abs_of_pos (by positivity : (0 : ℝ) < Real.pi / 180),
        abs_of_pos (by norm_num : (0 : ℝ) < 2)]
      ring
    rw [this]
    have hnn := abs_nonneg (lon2 - lon1)
    apply pow_le_pow_left₀ (by positivity)
    calc |lon2 - lon1| * (Real.pi / 360) ≤ e2 * (Real.pi / 360) :=
          mul_le_mul_of_nonneg_right he2 (by positivity)
      _ ≤ e2 * (315 / 36000) := by
          apply mul_le_mul_of_nonneg_left _ (le_trans hnn he2)
          linarith
  have hAle : A ≤ (R / 14017) ^ 2 := by linarith
  have hsqrt : √A ≤ R / 14017 := by
    rw [show R / 14017 = √((R / 14017) ^ 2) by rw [Real.sqrt_sq (by positivity)]]
    exact Real.sqrt_le_sqrt hAle
  obtain ⟨-, hup⟩ := arg_bounds A hA0 (by linarith)
  have : R / 14017 * 14017 = R := by field_simp
  nlinarith

/-- A lower bound on the real distance from a lower bound on the latitude
difference. -/
theorem calculateDistance_gt (lat1 lon1 lat2 lon2 e R : ℝ)
    (h1 : -90 ≤ lat1) (h2 : lat1 ≤ 90) (h3 : -90 ≤ lat2) (h4 : lat2 ≤ 90)
    (he0 : 0 < e) (he : e ≤ lat2 - lat1) (hlat : lat2 - lat1 ≤ 1) (hlon : |lon2 - lon1| ≤ 1)
    (hnum : R < 12742 * (99 / 100 * (e * (314 / 36000)))) :
    R < CalculateDistance
        (⟨Real.pi, Real.sin, Real.cos, Real.sqrt, fun y x => Complex.arg ⟨x, y⟩⟩ : Math ℝ)
        lat1 lon1 lat2 lon2 := by
  rw [calculateDistance_real]
  obtain ⟨hlo, hhi⟩ := haversine_bounds lat1 lon1 lat2 lon2 h1 h2 h3 h4
  set A := Real.sin ((lat2 - lat1) * (Real.pi / 180) / 2) *
            Real.sin ((lat2 - lat1) * (Real.pi / 180) / 2) +
          Real.cos (lat1 * Real.pi / 180) * Real.cos (lat2 * Real.pi / 180) *
            Real.sin ((lon2 - lon1) * (Real.pi / 180) / 2) *
            Real.sin ((lon2 - lon1) * (Real.pi / 180) / 2) with hA
  have hpi0 := Real.pi_pos
  have hpi := Real.pi_lt_d2
  have hpi2 := Real.pi_gt_d2
  set x := (lat2 - lat1) * (Real.pi / 180) / 2 with hx
  have hx0 : 0 < x := by rw [hx]; have : 0 < lat2 - lat1 := lt_of_lt_of_le he0 he; positivity
  have hxlo : e * (314 / 36000) ≤ x := by
    rw [hx]
    have : (lat2 - lat1) * (Real.pi / 180) / 2 = (lat2 - lat1) * (Real.pi / 360) := by ring
    rw [this]
    calc e * (314 / 36000) ≤ e * (Real.pi / 360) :=
          mul_le_mul_of_nonneg_left (by linarith) he0.le
      _ ≤ (lat2 - lat1) * (Real.pi / 360) := mul_le_mul_of_nonneg_right he (by positivity)
  have hxhi : x ≤ 1 / 100 := by
    rw [hx]
    have : (lat2 - lat1) * (Real.pi / 180) / 2 = (lat2 - lat1) * (Real.pi / 360) := by ring
    rw [this]
    calc (lat2 - lat1) * (Real.pi / 360) ≤ 1 * (Real.pi / 360) :=
          mul_le_mul_of_nonneg_right hlat (by positivity)
      _ ≤ 1 / 100 := by linarith
  have hsin : 99 / 100 * x < Real.sin x := by
    have h := Real.sin_gt_sub_cube hx0 (by linarith)
    have hx2 : x ^ 3 / 4 ≤ 1 / 100 * x := by
      have : x ^ 3 / 4 = (x ^ 2 / 4) * x := by ring
      rw [this]
      apply mul_le_mul_of_nonneg_right _ hx0.le
      nlinarith
    linarith
  have hy : ((lon2 - lon1) * (Real.pi / 180) / 2) ^ 2 ≤ (1 / 100) ^ 2 := by
    rw [← sq_abs ((lon2 - lon1) * (Real.pi / 180) / 2)]
    have : |(lon2 - lon1) * (Real.pi / 180) / 2| = |lon2 - lon1| * (Real.pi / 360) := by
      rw [abs_div, abs_mul, abs_of_pos (by positivity : (0 : ℝ) < Real.pi / 180),
        abs_of_pos (by norm_num : (0 : ℝ) < 2)]
      ring
    rw [this]
    apply pow_le_pow_left₀ (by positivity)
    calc |lon2 - lon1| * (Real.pi / 360) ≤ 1 * (Real.pi / 360) :=
          mul_le_mul_of_nonneg_right hlon (by positivity)
      _ ≤ 1 / 100 := by linarith
  have hA0 : 0 ≤ A := le_trans (sq_nonneg _) hlo
  have hA1 : A ≤ 1 / 4 := by
    have : x ^ 2 ≤ (1 / 100) ^ 2 := pow_le_pow_left₀ hx0.le hxhi 2
    linarith
  have hsqrt : 99 / 100 * x ≤ √A := by
    apply Real.le_sqrt_of_sq_le
    have : (99 / 100 * x) ^ 2 ≤ Real.sin x ^ 2 :=
      pow_le_pow_left₀ (by positivity) hsin.le 2
    exact le_trans this hlo
  obtain ⟨hlow, -⟩ := arg_bounds A hA0 hA1
  nlinarith
/-! ## The nearby scenario -/

set_option maxRecDepth 100000 in
theorem scenario_center_geohash :
    EncodeGeoHash (19076 / 1000) (728777 / 10000) PRECISION = some (str "te7ud2evv2pu2jk") ∧
      EncodeGeoHash (19076 / 1000) (728777 / 10000)
        ((str "te7ud2evv2pu2jk").length : Int) = some (str "te7ud2evv2pu2jk") ∧
      encodeChars (19076 / 1000) (728777 / 10000) 15 encodeInit =
        some (str "te7ud2evv2pu2jk") := by
  refine ⟨by decide!, by decide!, by decide!⟩

set_option maxRecDepth 100000 in
theorem scenario_far_geohash :
    EncodeGeoHash (192 / 10) 73 PRECISION = some (str "te7vjpkbp73jpz6") ∧
      EncodeGeoHash (192 / 10) 73
        ((str "te7ud2evv2pu2jk").length : Int) = some (str "te7vjpkbp73jpz6") ∧
      encodeChars (192 / 10) 73 15 encodeInit = some (str "te7vjpkbp73jpz6") := by
  refine ⟨by decide!, by decide!, by decide!⟩

set_option maxRecDepth 100000 in
/-- The decoded centre of the query geohash, read as real numbers. -/
theorem scenario_center_decoded :
    |(((DecodeGeoHash (str "te7ud2evv2pu2jk")).1 : ℚ) : ℝ) - 19076 / 1000| ≤ 1 / 10 ^ 6 ∧
      |(((DecodeGeoHash (str "te7ud2evv2pu2jk")).2 : ℚ) : ℝ) - 728777 / 10000| ≤ 1 / 10 ^ 6 := by
  obtain ⟨h2, h1⟩ := roundtrip_chars (19076 / 1000) (728777 / 10000) 15 _
    (by norm_num) (by norm_num) (by norm_num) (by norm_num) scenario_center_geohash.2.2
  have h1' : |(DecodeGeoHash (str "te7ud2evv2pu2jk")).1 - 19076 / 1000| ≤ 1 / 10 ^ 6 :=
    le_trans h1 (by norm_num)
  have h2' : |(DecodeGeoHash (str "te7ud2evv2pu2jk")).2 - 728777 / 10000| ≤ 1 / 10 ^ 6 :=
    le_trans h2 (by norm_num)
  constructor
  · have := (Rat.cast_le (K := ℝ)).2 h1'
    push_cast at this
    simpa using this
  · have := (Rat.cast_le (K := ℝ)).2 h2'
    push_cast at this
    simpa using this

set_option maxRecDepth 100000 in
theorem scenario_far_decoded :
    |(((DecodeGeoHash (str "te7vjpkbp73jpz6")).1 : ℚ) : ℝ) - 192 / 10| ≤ 1 / 10 ^ 6 ∧
      |(((DecodeGeoHash (str "te7vjpkbp73jpz6")).2 : ℚ) : ℝ) - 73| ≤ 1 / 10 ^ 6 := by
  obtain ⟨h2, h1⟩ := roundtrip_chars (192 / 10) 73 15 _
    (by norm_num) (by norm_num) (by norm_num) (by norm_num) scenario_far_geohash.2.2
  have h1' : |(DecodeGeoHash (str "te7vjpkbp73jpz6")).1 - 192 / 10| ≤ 1 / 10 ^ 6 :=
    le_trans h1 (by norm_num)
  have h2' : |(DecodeGeoHash (str "te7vjpkbp73jpz6")).2 - 73| ≤ 1 / 10 ^ 6 :=
    le_trans h2 (by norm_num)
  constructor
  · have := (Rat.cast_le (K := ℝ)).2 h1'
    push_cast at this
    simpa using this
  · have := (Rat.cast_le (K := ℝ)).2 h2'
    push_cast at this
    simpa using this


set_option maxRecDepth 100000 in
theorem scenario_load (prev : Globals) (lat lon : ℚ) :
    loadDataInTrie prev
        ⟨lat, lon, [⟨str "Center", 19076 / 1000, 728777 / 10000, 0⟩,
          ⟨str "Far", 192 / 10, 73, 0⟩]⟩ =
      some ⟨some ((NewGeoHashTrie.Insert (str "te7ud2evv2pu2jk")).Insert
          (str "te7vjpkbp73jpz6")), lat, lon,
        setName (setName prev.geohashAndPlaceMap (str "te7ud2evv2pu2jk") (str "Center"))
          (str "te7vjpkbp73jpz6") (str "Far")⟩ := by
  rw [loadDataInTrie]
  simp only []
  rw [loadPlaces_cons]
  simp only []
  rw [scenario_center_geohash.1, Option.some_bind, loadPlaces_cons]
  simp only []
  rw [scenario_far_geohash.1, Option.some_bind, loadPlaces, Option.map_some']

set_option maxRecDepth 100000 in
theorem scenario_names (m : List Byte → Option (List Byte)) :
    (setName (setName m (str "te7ud2evv2pu2jk") (str "Center")) (str "te7vjpkbp73jpz6")
        (str "Far") (str "te7ud2evv2pu2jk")).getD [] = str "Center" ∧
      (setName (setName m (str "te7ud2evv2pu2jk") (str "Center")) (str "te7vjpkbp73jpz6")
        (str "Far") (str "te7vjpkbp73jpz6")).getD [] = str "Far" := by
  have hne : str "te7ud2evv2pu2jk" ≠ str "te7vjpkbp73jpz6" := by decide!
  constructor
  · simp only [setName, if_neg hne, if_true, Option.getD_some]
  · simp only [setName, if_true, Option.getD_some]

set_option maxRecDepth 100000 in
theorem scenario_stored (s : List Byte) :
    ((NewGeoHashTrie.Insert (str "te7ud2evv2pu2jk")).Insert (str "te7vjpkbp73jpz6")).Search s =
        true ↔
      s = str "te7ud2evv2pu2jk" ∨ s = str "te7vjpkbp73jpz6" := by
  simp only [GeoHashTrie.Search, GeoHashTrie.Insert, NewGeoHashTrie, searchFrom_insertFrom,
    searchFrom_emptyNode, Bool.or_false, Bool.or_eq_true, decide_eq_true_eq]
  tauto

set_option maxRecDepth 100000 in
theorem scenario_ascii :
    AsciiTrie ((NewGeoHashTrie.Insert (str "te7ud2evv2pu2jk")).Insert
      (str "te7vjpkbp73jpz6")).root :=
  asciiTrie_insertFrom _ _
    (asciiTrie_insertFrom _ _ asciiTrie_emptyNode
      (encodeChars_ascii _ _ 15 encodeInit _ scenario_center_geohash.2.2))
    (encodeChars_ascii _ _ 15 encodeInit _ scenario_far_geohash.2.2)

set_option maxRecDepth 100000 in
theorem scenario_cos :
    0 < Real.cos ((((DecodeGeoHash (str "te7ud2evv2pu2jk")).1 : ℚ) : ℝ) * Real.pi / 180) ∧
      Real.cos ((((DecodeGeoHash (str "te7ud2evv2pu2jk")).1 : ℚ) : ℝ) * Real.pi / 180) ≤ 1 := by
  obtain ⟨h1, h2⟩ := abs_le.1 scenario_center_decoded.1
  have hpi := Real.pi_pos
  refine ⟨Real.cos_pos_of_mem_Ioo ⟨?_, ?_⟩, Real.cos_le_one _⟩
  · have : 0 ≤ (((DecodeGeoHash (str "te7ud2evv2pu2jk")).1 : ℚ) : ℝ) * Real.pi / 180 := by
      have : 0 ≤ (((DecodeGeoHash (str "te7ud2evv2pu2jk")).1 : ℚ) : ℝ) := by linarith
      positivity
    linarith
  · nlinarith

set_option maxRecDepth 100000 in
/-- The candidates of the scenario for a radius of at least 10 km. -/
theorem scenario_places (r : ℝ) (hr : 10 ≤ r) :
    ∃ places,
      ((NewGeoHashTrie.Insert (str "te7ud2evv2pu2jk")).Insert (str "te7vjpkbp73jpz6")).FindNearby
        (⟨Real.pi, Real.sin, Real.cos, Real.sqrt, fun y x => Complex.arg ⟨x, y⟩⟩ : Math ℝ)
        (str "te7ud2evv2pu2jk") r = some places ∧
      places.Nodup ∧ str "te7ud2evv2pu2jk" ∈ places ∧
      (∀ s ∈ places, s = str "te7ud2evv2pu2jk" ∨ s = str "te7vjpkbp73jpz6") ∧
      (30 ≤ r → str "te7vjpkbp73jpz6" ∈ places) := by
  obtain ⟨sw, ne, -, -, hfn⟩ := findNearby_some
    (⟨Real.pi, Real.sin, Real.cos, Real.sqrt, fun y x => Complex.arg ⟨x, y⟩⟩ : Math ℝ)
    ((NewGeoHashTrie.Insert (str "te7ud2evv2pu2jk")).Insert (str "te7vjpkbp73jpz6"))
    (str "te7ud2evv2pu2jk") r
  obtain ⟨hnd, hst⟩ := findNearby_sound _ _ scenario_ascii _ r _ hfn
  obtain ⟨hc1, hc2⟩ := abs_le.1 scenario_center_decoded.1
  obtain ⟨hc3, hc4⟩ := abs_le.1 scenario_center_decoded.2
  refine ⟨_, hfn, hnd, ?_, fun s hs => (scenario_stored s).1 (hst s hs), ?_⟩
  · apply mem_findNearby _ _ _ r (19076 / 1000) (728777 / 10000) _ _
      scenario_center_geohash.2.1 ((scenario_stored _).2 (Or.inl rfl))
      scenario_cos.1 scenario_cos.2 (by linarith) _ _ hfn
    · rw [abs_le]; push_cast; constructor <;> linarith
    · rw [abs_le]; push_cast; constructor <;> linarith
  · intro hr30
    apply mem_findNearby _ _ _ r (192 / 10) 73 _ _
      scenario_far_geohash.2.1 ((scenario_stored _).2 (Or.inr rfl))
      scenario_cos.1 scenario_cos.2 (by linarith) _ _ hfn
    · rw [abs_le]; push_cast; constructor <;> linarith
    · rw [abs_le]; push_cast; constructor <;> linarith


set_option maxRecDepth 100000 in
theorem scenario_center_distance (R : ℝ) (hR : 10 ≤ R) (hR30 : R ≤ 30) :
    CalculateDistance
        (⟨Real.pi, Real.sin, Real.cos, Real.sqrt, fun y x => Complex.arg ⟨x, y⟩⟩ : Math ℝ)
        (19076 / 1000) (728777 / 10000)
        (((DecodeGeoHash (str "te7ud2evv2pu2jk")).1 : ℚ) : ℝ)
        (((DecodeGeoHash (str "te7ud2evv2pu2jk")).2 : ℚ) : ℝ) ≤ R := by
  obtain ⟨hc1, hc2⟩ := abs_le.1 scenario_center_decoded.1
  have hsq : (10 : ℝ) ^ 2 ≤ R ^ 2 := pow_le_pow_left₀ (by norm_num) hR 2
  have hsq30 : R ^ 2 ≤ (30 : ℝ) ^ 2 := pow_le_pow_left₀ (by linarith) hR30 2
  apply calculateDistance_le _ _ _ _ (1 / 10 ^ 6) (1 / 10 ^ 6) R (by norm_num) (by norm_num)
    (by linarith) (by linarith) scenario_center_decoded.1 scenario_center_decoded.2
    (by linarith)
  · rw [div_pow]; norm_num at hsq ⊢; linarith
  · rw [div_pow]; norm_num at hsq30 ⊢; linarith

set_option maxRecDepth 100000 in
theorem scenario_far_distance :
    10 < CalculateDistance
        (⟨Real.pi, Real.sin, Real.cos, Real.sqrt, fun y x => Complex.arg ⟨x, y⟩⟩ : Math ℝ)
        (19076 / 1000) (728777 / 10000)
        (((DecodeGeoHash (str "te7vjpkbp73jpz6")).1 : ℚ) : ℝ)
        (((DecodeGeoHash (str "te7vjpkbp73jpz6")).2 : ℚ) : ℝ) ∧
      CalculateDistance
        (⟨Real.pi, Real.sin, Real.cos, Real.sqrt, fun y x => Complex.arg ⟨x, y⟩⟩ : Math ℝ)
        (19076 / 1000) (728777 / 10000)
        (((DecodeGeoHash (str "te7vjpkbp73jpz6")).1 : ℚ) : ℝ)
        (((DecodeGeoHash (str "te7vjpkbp73jpz6")).2 : ℚ) : ℝ) ≤ 30 := by
  obtain ⟨hc1, hc2⟩ := abs_le.1 scenario_far_decoded.1
  obtain ⟨hc3, hc4⟩ := abs_le.1 scenario_far_decoded.2
  constructor
  · apply calculateDistance_gt _ _ _ _ (1239 / 10000) 10 (by norm_num) (by norm_num)
      (by linarith) (by linarith) (by norm_num) (by linarith) (by linarith)
    · rw [abs_le]; constructor <;> linarith
    · norm_num
  · apply calculateDistance_le _ _ _ _ (1241 / 10000) (1224 / 10000) 30 (by norm_num)
      (by norm_num) (by linarith) (by linarith)
    · rw [abs_le]; constructor <;> linarith
    · rw [abs_le]; constructor <;> linarith
    · norm_num
    · norm_num
    · norm_num

set_option maxRecDepth 100000 in
theorem nearbyLocation_name {F : Type} [LinearOrderedField F] (math : Math F) (st : Globals)
    (lati long radius : F) (g : List Byte) (loc : InField.Location F)
    (h : nearbyLocation math st lati long radius g = some loc) :
    loc.Name = (st.geohashAndPlaceMap g).getD [] := by
  unfold nearbyLocation at h
  simp only [] at h
  split at h
  · cases h; rfl
  · cases h

set_option maxRecDepth 100000 in
theorem nearbyLocation_isSome {F : Type} [LinearOrderedField F] (math : Math F) (st : Globals)
    (lati long radius : F) (g : List Byte) :
    (nearbyLocation math st lati long radius g).isSome = true ↔
      CalculateDistance math lati long (((DecodeGeoHash g).1 : ℚ) : F)
        (((DecodeGeoHash g).2 : ℚ) : F) ≤ radius := by
  unfold nearbyLocation
  simp only []
  split <;> simp [*]


set_option maxRecDepth 100000 in
theorem scenario_query_geohash :
    InField.EncodeGeoHash (19076 / 1000 : ℝ) (728777 / 10000 : ℝ) PRECISION =
      some (str "te7ud2evv2pu2jk") := by
  have h := encodeGeoHash_cast (F := ℝ) (19076 / 1000) (728777 / 10000) PRECISION
  rw [scenario_center_geohash.1] at h
  rw [← h]
  push_cast
  rfl

set_option maxRecDepth 100000 in
/-- The response of the handler in the scenario, for a radius of at least 10 km,
in terms of the candidates of `FindNearby`. -/
theorem scenario_handler (m : List Byte → Option (List Byte)) (lat lon : ℚ) (r : ℝ)
    (hr : 10 ≤ r) :
    ∃ places : List (List Byte),
      FindNearByHandler
          (⟨Real.pi, Real.sin, Real.cos, Real.sqrt, fun y x => Complex.arg ⟨x, y⟩⟩ : Math ℝ)
          ⟨some ((NewGeoHashTrie.Insert (str "te7ud2evv2pu2jk")).Insert
            (str "te7vjpkbp73jpz6")), lat, lon, m⟩ (19076 / 1000) (728777 / 10000) r =
        some (places.filterMap (nearbyLocation
          (⟨Real.pi, Real.sin, Real.cos, Real.sqrt, fun y x => Complex.arg ⟨x, y⟩⟩ : Math ℝ)
          ⟨some ((NewGeoHashTrie.Insert (str "te7ud2evv2pu2jk")).Insert
            (str "te7vjpkbp73jpz6")), lat, lon, m⟩ (19076 / 1000) (728777 / 10000) r)) ∧
      places.Nodup ∧ str "te7ud2evv2pu2jk" ∈ places ∧
      (∀ s ∈ places, s = str "te7ud2evv2pu2jk" ∨ s = str "te7vjpkbp73jpz6") ∧
      (30 ≤ r → str "te7vjpkbp73jpz6" ∈ places) := by
  obtain ⟨places, hfn, hrest⟩ := scenario_places r hr
  exact ⟨places, findNearByHandler_eq _ _ _ _ _ _ _ _ rfl scenario_query_geohash hfn, hrest⟩

set_option maxRecDepth 100000 in
/-- The names in the two responses of the scenario, for a name table that
holds the two names. -/
theorem scenario_response (m : List Byte → Option (List Byte)) (lat lon : ℚ)
    (hnC : (m (str "te7ud2evv2pu2jk")).getD [] = str "Center")
    (hnF : (m (str "te7vjpkbp73jpz6")).getD [] = str "Far") :
    ∃ near far,
      FindNearByHandler
          (⟨Real.pi, Real.sin, Real.cos, Real.sqrt, fun y x => Complex.arg ⟨x, y⟩⟩ : Math ℝ)
          ⟨some ((NewGeoHashTrie.Insert (str "te7ud2evv2pu2jk")).Insert
            (str "te7vjpkbp73jpz6")), lat, lon, m⟩ (19076 / 1000) (728777 / 10000) 10 =
          some near ∧
        near.map (fun loc => loc.Name) = [str "Center"] ∧
        FindNearByHandler
          (⟨Real.pi, Real.sin, Real.cos, Real.sqrt, fun y x => Complex.arg ⟨x, y⟩⟩ : Math ℝ)
          ⟨some ((NewGeoHashTrie.Insert (str "te7ud2evv2pu2jk")).Insert
            (str "te7vjpkbp73jpz6")), lat, lon, m⟩ (19076 / 1000) (728777 / 10000) 30 =
          some far ∧
        (far.map (fun loc => loc.Name)).Perm [str "Center", str "Far"] := by
  have hne : str "te7ud2evv2pu2jk" ≠ str "te7vjpkbp73jpz6" := by decide!
  obtain ⟨p10, h10, hnd10, hC10, hall10, -⟩ := scenario_handler m lat lon 10 le_rfl
  obtain ⟨p30, h30, hnd30, hC30, hall30, hF30⟩ := scenario_handler m lat lon 30 (by norm_num)
  set st : Globals := ⟨some ((NewGeoHashTrie.Insert (str "te7ud2evv2pu2jk")).Insert
    (str "te7vjpkbp73jpz6")), lat, lon, m⟩ with hst
  set math : Math ℝ :=
    ⟨Real.pi, Real.sin, Real.cos, Real.sqrt, fun y x => Complex.arg ⟨x, y⟩⟩ with hmath
  -- the centre is kept at both radii
  obtain ⟨c10, hc10⟩ := Option.isSome_iff_exists.1
    ((nearbyLocation_isSome math st (19076 / 1000) (728777 / 10000) 10 _).2
      (scenario_center_distance 10 le_rfl (by norm_num)))
  obtain ⟨c30, hc30⟩ := Option.isSome_iff_exists.1
    ((nearbyLocation_isSome math st (19076 / 1000) (728777 / 10000) 30 _).2
      (scenario_center_distance 30 (by norm_num) le_rfl))
  -- the far place is kept at 30 km only
  obtain ⟨f30, hf30⟩ := Option.isSome_iff_exists.1
    ((nearbyLocation_isSome math st (19076 / 1000) (728777 / 10000) 30 _).2
      scenario_far_distance.2)
  have hf10 : nearbyLocation math st (19076 / 1000) (728777 / 10000) 10
      (str "te7vjpkbp73jpz6") = none := by
    cases h : nearbyLocation math st (19076 / 1000) (728777 / 10000) 10
        (str "te7vjpkbp73jpz6") with
    | none => rfl
    | some b =>
      have := (nearbyLocation_isSome math st (19076 / 1000) (728777 / 10000) 10 _).1
        (by rw [h]; rfl)
      exact absurd scenario_far_distance.1 (not_lt.2 this)
  have hcn10 : c10.Name = str "Center" := (nearbyLocation_name _ _ _ _ _ _ _ hc10).trans hnC
  have hcn30 : c30.Name = str "Center" := (nearbyLocation_name _ _ _ _ _ _ _ hc30).trans hnC
  have hfn30 : f30.Name = str "Far" := (nearbyLocation_name _ _ _ _ _ _ _ hf30).trans hnF
  refine ⟨_, _, h10, ?_, h30, ?_⟩
  · rw [filterMap_eq_singleton _ _ c10 _ hnd10 hC10 hc10, List.map_cons, List.map_nil, hcn10]
    intro x hx hxC
    rcases hall10 x hx with rfl | rfl
    · exact absurd rfl hxC
    · exact hf10
  · have hperm : p30.Perm [str "te7ud2evv2pu2jk", str "te7vjpkbp73jpz6"] := by
      rw [List.perm_ext_iff_of_nodup hnd30
        (List.nodup_cons.2 ⟨by simpa using hne, List.nodup_singleton _⟩)]
      intro a
      constructor
      · intro ha
        rcases hall30 a ha with rfl | rfl <;> simp
      · intro ha
        simp only [List.mem_cons, List.mem_singleton, List.not_mem_nil, or_false] at ha
        rcases ha with rfl | rfl
        · exact hC30
        · exact hF30 le_rfl
    have h2 := (hperm.filterMap
      (nearbyLocation math st (19076 / 1000) (728777 / 10000) 30)).map (fun loc => loc.Name)
    rw [List.filterMap_cons_some hc30, List.filterMap_cons_some hf30, List.filterMap_nil,
      List.map_cons, List.map_cons, List.map_nil, hcn30, hfn30] at h2
    exact h2

/-! ## Contracts -/

/-- C1. Prefix monotonicity: for precisions `0 ≤ p1 < p2` both encodings
succeed and the one at precision `p1` is the first `p1` bytes of the one at
precision `p2`. -/
theorem encode_prefix_monotone (lat lon : ℚ) (p1 p2 : Int) (h0 : 0 ≤ p1) (h12 : p1 < p2) :
    ∃ g2, EncodeGeoHash lat lon p2 = some g2 ∧
      EncodeGeoHash lat lon p1 = some (g2.take p1.toNat) := by
  obtain ⟨cs, hcs, -, htake⟩ := encodeChars_take lat lon p2.toNat encodeInit rfl
  refine ⟨cs, ?_, ?_⟩
  · simp only [EncodeGeoHash, if_neg (show ¬ p2 < 0 by omega), hcs]
  · simp only [EncodeGeoHash, if_neg (show ¬ p1 < 0 by omega)]
    exact htake _ (by omega)

theorem encode_prefix_monotone_witness :
    ∃ g2, EncodeGeoHash (19076 / 1000) (728777 / 10000) 7 = some g2 ∧
      EncodeGeoHash (19076 / 1000) (728777 / 10000) 5 = some (g2.take (5 : Int).toNat) :=
  encode_prefix_monotone (19076 / 1000) (728777 / 10000) 5 7 (by decide) (by decide)

set_option maxRecDepth 100000 in
/-- C3. `Search` is exact membership: on the trie built from `NewGeoHashTrie()`
by inserting every element of a list `L`, `Search(h)` is true exactly when `h`
is an element of `L`. In particular, after inserting only the precision-7
geohash of (19.0760, 72.8777), which is `te7ud2e`, searching that string is
true and searching its first five bytes is false. -/
theorem search_iff_inserted :
    (∀ (L : List (List Byte)) (h : List Byte),
      (L.foldl GeoHashTrie.Insert NewGeoHashTrie).Search h = true ↔ h ∈ L) ∧
    EncodeGeoHash (19076 / 1000) (728777 / 10000) 7 = some (str "te7ud2e") ∧
    (NewGeoHashTrie.Insert (str "te7ud2e")).Search (str "te7ud2e") = true ∧
    (NewGeoHashTrie.Insert (str "te7ud2e")).Search ((str "te7ud2e").take 5) = false := by
  refine ⟨?_, by decide!, by decide!, by decide!⟩
  intro L h
  rw [search_foldl_insert]
  simp [GeoHashTrie.Search, NewGeoHashTrie, searchFrom_emptyNode]

/-- C4. `Delete` removes exactly one geohash: after `Delete(g)`, `Search(h)` is
true exactly when `h ≠ g` and `Search(h)` was true before the call. -/
theorem search_after_delete (t : GeoHashTrie) (g h : List Byte) :
    (t.Delete g).1.Search h = true ↔ (h ≠ g ∧ t.Search h = true) := by
  simp [GeoHashTrie.Search, GeoHashTrie.Delete, searchFrom_deleteHelper]

/-- C5. `Insert` is idempotent: inserting `g` twice gives the very trie that
inserting `g` once gives, hence the same node count and the same `Search`
result for every string. -/
theorem insert_idempotent (t : GeoHashTrie) (g : List Byte) :
    (t.Insert g).Insert g = t.Insert g ∧
      nodeCount ((t.Insert g).Insert g).root = nodeCount (t.Insert g).root ∧
      ∀ h, ((t.Insert g).Insert g).Search h = (t.Insert g).Search h := by
  have h : (t.Insert g).Insert g = t.Insert g := by
    simp [GeoHashTrie.Insert, insertFrom_idem]
  rw [h]
  exact ⟨rfl, rfl, fun _ => rfl⟩

/-- C6. `Delete` of an absent geohash is a no-op: when `Search(g)` is false,
`Delete(g)` returns false and leaves the trie unchanged. -/
theorem delete_absent (t : GeoHashTrie) (g : List Byte) (h : t.Search g = false) :
    t.Delete g = (t, false) := by
  simp only [GeoHashTrie.Delete, deleteHelper_absent g t.root h]

set_option maxRecDepth 100000 in
theorem delete_absent_witness :
    (NewGeoHashTrie.Insert (str "te7ud2e")).Search (str "te7ud") = false ∧
      (NewGeoHashTrie.Insert (str "te7ud2e")).Delete (str "te7ud") =
        (NewGeoHashTrie.Insert (str "te7ud2e"), false) :=
  ⟨by decide!, delete_absent _ _ (by decide!)⟩

/-- C7. Deletion pruning returns the trie to its baseline: in a trie reachable
from `NewGeoHashTrie()` by `Insert` and `Delete` calls, inserting a geohash `g`
that is not stored and then deleting it yields the trie one started from, so
the node count is the one before the insertion and no node is left dangling. -/
theorem insert_delete_restores (t : GeoHashTrie) (g : List Byte) (hr : Reachable t)
    (hs : t.Search g = false) :
    ((t.Insert g).Delete g).1 = t ∧
      nodeCount ((t.Insert g).Delete g).1.root = nodeCount t.root ∧
      NoDangling ((t.Insert g).Delete g).1.root := by
  have hn := noDangling_of_reachable t hr
  have h : ((t.Insert g).Delete g).1 = t := by
    simp only [GeoHashTrie.Delete, GeoHashTrie.Insert, deleteHelper_insertFrom g t.root hn hs]
  rw [h]
  exact ⟨rfl, rfl, hn⟩

set_option maxRecDepth 100000 in
theorem insert_delete_restores_witness :
    ((((NewGeoHashTrie.Insert (str "te7")).Insert (str "te7ud2e")).Delete (str "te7ud2e")).1 =
        NewGeoHashTrie.Insert (str "te7")) ∧
      nodeCount (((NewGeoHashTrie.Insert (str "te7")).Insert (str "te7ud2e")).Delete
        (str "te7ud2e")).1.root = 4 :=
  have h := insert_delete_restores (NewGeoHashTrie.Insert (str "te7")) (str "te7ud2e")
    (Reachable.insert _ _ Reachable.new) (by decide!)
  ⟨h.1, h.2.1.trans (by decide!)⟩

set_option maxRecDepth 100000 in
/-- C10 as stated fails: `a` is not in the alphabet, and `DecodeGeoHash("a")`
returns the coordinates (67.5, 157.5), the same as for `z`. -/
theorem decode_accepts_invalid_char :
    (∃ b ∈ str "a", b ∉ BASE_32) ∧
      DecodeGeoHash (str "a") = (135 / 2, 315 / 2) ∧
      DecodeGeoHash (str "a") = DecodeGeoHash (str "z") := by
  refine ⟨by decide!, by decide!, by decide!⟩

/-- C10, amended. `DecodeGeoHash` has no failure outcome: for every string it
returns coordinates, and each rune whose byte value is outside the alphabet is
decoded exactly like `z` (index `-1`, all five bits read as 1). -/
theorem decode_invalid_as_z (g : List Byte) :
    DecodeGeoHash g =
      decodeRunes ((runes g).map fun c => if byteOfRune c ∈ BASE_32 then c else 122) := by
  simp only [DecodeGeoHash, decodeRunes, foldl_decodeChar_map]

set_option maxRecDepth 100000 in
/-- C2. Round-trip bound, in exact arithmetic: for latitude in [-90, 90],
longitude in [-180, 180] and precision `p ≥ 1`, encoding succeeds and decoding
the result gives a point whose longitude is within `180 / 2^⌈5p/2⌉` and whose
latitude is within `90 / 2^⌊5p/2⌋` of the original. For (19.0760, 72.8777) at
precision 7 both coordinates come back within 0.01 degrees. -/
theorem roundtrip_bound :
    (∀ (lat lon : ℚ) (p : Int), -90 ≤ lat → lat ≤ 90 → -180 ≤ lon → lon ≤ 180 → 1 ≤ p →
      ∃ g, EncodeGeoHash lat lon p = some g ∧
        |(DecodeGeoHash g).2 - lon| ≤ 180 / 2 ^ ⌈5 * (p : ℚ) / 2⌉₊ ∧
        |(DecodeGeoHash g).1 - lat| ≤ 90 / 2 ^ ⌊5 * (p : ℚ) / 2⌋₊) ∧
    (∃ g, EncodeGeoHash (19076 / 1000) (728777 / 10000) 7 = some g ∧
      |(DecodeGeoHash g).1 - 19076 / 1000| ≤ 1 / 100 ∧
      |(DecodeGeoHash g).2 - 728777 / 10000| ≤ 1 / 100) := by
  constructor
  · intro lat lon p h1 h2 h3 h4 hp
    obtain ⟨g, hg, -, -⟩ := encodeChars_take lat lon p.toNat encodeInit rfl
    refine ⟨g, ?_, ?_⟩
    · simp only [EncodeGeoHash, if_neg (show ¬ p < 0 by omega), hg]
    · have hcast : (p : ℚ) = ((p.toNat : Nat) : ℚ) := by
        have : ((p.toNat : Nat) : Int) = p := Int.toNat_of_nonneg (by omega)
        exact_mod_cast this.symm
      have e5 : 5 * (p : ℚ) = ((5 * p.toNat : Nat) : ℚ) := by rw [hcast]; push_cast; ring
      rw [e5, ceil_half, floor_half]
      exact roundtrip_chars lat lon p.toNat g h1 h2 h3 h4 hg
  · exact ⟨str "te7ud2e", by decide!, by decide!, by decide!⟩

theorem roundtrip_bound_witness :
    ∃ g, EncodeGeoHash (19076 / 1000) (728777 / 10000) 7 = some g ∧
      |(DecodeGeoHash g).2 - 728777 / 10000| ≤ 180 / 2 ^ ⌈5 * ((7 : Int) : ℚ) / 2⌉₊ ∧
      |(DecodeGeoHash g).1 - 19076 / 1000| ≤ 90 / 2 ^ ⌊5 * ((7 : Int) : ℚ) / 2⌋₊ :=
  roundtrip_bound.1 (19076 / 1000) (728777 / 10000) 7 (by norm_num) (by norm_num)
    (by norm_num) (by norm_num) (by decide)

/-- C8. `RangeQuery` returns a superset of the stored points inside the box:
for precision `p ≥ 0`, corners `sw ≤ ne` and a point inside the box, the three
encodings succeed, and if the geohash of the point is stored in the trie then
it is an element of `RangeQuery` on the geohashes of the corners. -/
theorem rangeQuery_superset (t : GeoHashTrie) (p : Int)
    (swLat swLon neLat neLon lat lon : ℚ) (hp : 0 ≤ p)
    (_h1 : swLat ≤ neLat) (_h2 : swLon ≤ neLon)
    (h3 : swLat ≤ lat) (h4 : lat ≤ neLat) (h5 : swLon ≤ lon) (h6 : lon ≤ neLon) :
    ∃ g sw ne, EncodeGeoHash lat lon p = some g ∧ EncodeGeoHash swLat swLon p = some sw ∧
      EncodeGeoHash neLat neLon p = some ne ∧
      (t.Search g = true → g ∈ t.RangeQuery sw ne) := by
  obtain ⟨g, hg, -, -⟩ := encodeChars_take lat lon p.toNat encodeInit rfl
  obtain ⟨sw, hsw, -, -⟩ := encodeChars_take swLat swLon p.toNat encodeInit rfl
  obtain ⟨ne, hne, -, -⟩ := encodeChars_take neLat neLon p.toNat encodeInit rfl
  have hneg : ¬ p < 0 := by omega
  refine ⟨g, sw, ne, ?_, ?_, ?_, ?_⟩
  · simp only [EncodeGeoHash, if_neg hneg, hg]
  · simp only [EncodeGeoHash, if_neg hneg, hsw]
  · simp only [EncodeGeoHash, if_neg hneg, hne]
  · intro hs
    have hpre := commonPrefix_encodeChars swLat swLon neLat neLon lat lon h3 h4 h5 h6
      p.toNat encodeInit sw ne g hsw hne hg
    have hascii := encodeChars_ascii lat lon p.toNat encodeInit g hg
    have h := mem_collectGeohashes g t.root (commonPrefix sw ne) [] hs hascii
      (by rw [List.nil_append]; exact hpre)
    rw [List.nil_append] at h
    exact h

theorem rangeQuery_superset_witness :
    ∃ g sw ne, EncodeGeoHash (19076 / 1000) (728777 / 10000) 7 = some g ∧
      EncodeGeoHash 19 (728 / 10) 7 = some sw ∧ EncodeGeoHash (191 / 10) (729 / 10) 7 = some ne ∧
      ((NewGeoHashTrie.Insert (str "te7ud2e")).Search g = true →
        g ∈ (NewGeoHashTrie.Insert (str "te7ud2e")).RangeQuery sw ne) :=
  rangeQuery_superset (NewGeoHashTrie.Insert (str "te7ud2e")) 7 19 (728 / 10) (191 / 10)
    (729 / 10) (19076 / 1000) (728777 / 10000) (by decide) (by norm_num) (by norm_num)
    (by norm_num) (by norm_num) (by norm_num) (by norm_num)

/-- C12. `EncodeGeoHash` always produces a well-formed geohash: for every
latitude, longitude and precision `p ≥ 0` the call succeeds, the result has
exactly `p` bytes, each one a symbol of the alphabet, and at each iteration
`i < p` the accumulator is below 32 and the byte written is the alphabet symbol
at that index. -/
theorem encode_well_formed (lat lon : ℚ) (p : Int) (hp : 0 ≤ p) :
    ∃ g, EncodeGeoHash lat lon p = some g ∧ g.length = p.toNat ∧
      (∀ b ∈ g, b ∈ BASE_32) ∧
      ∀ i : Nat, i < p.toNat →
        (encodeBits lat lon 5 (encodeState lat lon i encodeInit)).hash_value < 32 ∧
        g[i]? = BASE_32[(encodeBits lat lon 5 (encodeState lat lon i encodeInit)).hash_value]? := by
  obtain ⟨g, hg, hlen, -⟩ := encodeChars_take lat lon p.toNat encodeInit rfl
  have hneg : ¬ p < 0 := by omega
  refine ⟨g, ?_, hlen, encodeChars_mem lat lon _ _ g hg, ?_⟩
  · simp only [EncodeGeoHash, if_neg hneg, hg]
  · intro i hi
    exact ⟨encodeBits_five_lt lat lon _ (encodeState_hash lat lon i encodeInit rfl),
      encodeChars_getElem lat lon _ _ g hg i hi⟩

theorem encode_well_formed_witness :
    ∃ g, EncodeGeoHash (19076 / 1000) (728777 / 10000) 7 = some g ∧
      g.length = (7 : Int).toNat ∧ (∀ b ∈ g, b ∈ BASE_32) ∧
      ∀ i : Nat, i < (7 : Int).toNat →
        (encodeBits (19076 / 1000) (728777 / 10000) 5
          (encodeState (19076 / 1000) (728777 / 10000) i encodeInit)).hash_value < 32 ∧
        g[i]? = BASE_32[(encodeBits (19076 / 1000) (728777 / 10000) 5
          (encodeState (19076 / 1000) (728777 / 10000) i encodeInit)).hash_value]? :=
  encode_well_formed (19076 / 1000) (728777 / 10000) 7 (by decide)

/-- C20. `EncodeGeoHash` undoes `DecodeGeoHash` on valid geohashes: for every
string `g` whose bytes all belong to the alphabet, encoding the decoded point at
precision `len(g)` returns `g`. -/
theorem encode_decode (g : List Byte) (hv : ∀ b ∈ g, b ∈ BASE_32) :
    EncodeGeoHash (DecodeGeoHash g).1 (DecodeGeoHash g).2 (g.length : Int) = some g := by
  have h := encodeChars_of_strictIn (DecodeGeoHash g).1 (DecodeGeoHash g).2 g encodeInit
    decodeInit hv sameCell_init rfl (strictIn_decode g)
  simp only [EncodeGeoHash, if_neg (show ¬ (g.length : Int) < 0 by omega), Int.toNat_ofNat, h]

set_option maxRecDepth 100000 in
theorem encode_decode_witness :
    EncodeGeoHash (DecodeGeoHash (str "te7ud2e")).1 (DecodeGeoHash (str "te7ud2e")).2
      ((str "te7ud2e").length : Int) = some (str "te7ud2e") :=
  encode_decode (str "te7ud2e") (by decide!)

/-- C17. No-dangling-node invariant: in a trie reachable from
`NewGeoHashTrie()` by `Insert` and `Delete` calls, every node below the root is
end-marked or has a child; equivalently the non-empty paths that lead to a node
are the non-empty prefixes of the stored geohashes, and the number of nodes
below the root is the number of these distinct prefixes. -/
theorem reachable_no_dangling (t : GeoHashTrie) (hr : Reachable t) :
    (∀ (path : List Byte) (m : TrieNode), path ≠ [] → walk t.root path = some m →
      m.isEnd = true ∨ ∃ b, m.children b ≠ none) ∧
    (∀ path : List Byte, path ≠ [] →
      ((∃ m, walk t.root path = some m) ↔ ∃ ext, t.Search (path ++ ext) = true)) ∧
    ∃ L : List (List Byte), L.Nodup ∧
      (∀ p, p ∈ L ↔ p ≠ [] ∧ ∃ ext, t.Search (p ++ ext) = true) ∧
      L.length + 1 = nodeCount t.root := by
  have hn := noDangling_of_reachable t hr
  exact ⟨hn, fun path hp => walk_iff_prefix_of_stored t.root hn path hp,
    count_prefixes t.root hn⟩

theorem reachable_no_dangling_witness :
    (∀ (path : List Byte) (m : TrieNode), path ≠ [] →
      walk (((NewGeoHashTrie.Insert (str "te7")).Insert (str "tex")).Delete (str "te7")).1.root
        path = some m →
      m.isEnd = true ∨ ∃ b, m.children b ≠ none) ∧
    (∀ path : List Byte, path ≠ [] →
      ((∃ m, walk (((NewGeoHashTrie.Insert (str "te7")).Insert (str "tex")).Delete
          (str "te7")).1.root path = some m) ↔
        ∃ ext, (((NewGeoHashTrie.Insert (str "te7")).Insert (str "tex")).Delete
          (str "te7")).1.Search (path ++ ext) = true)) ∧
    ∃ L : List (List Byte), L.Nodup ∧
      (∀ p, p ∈ L ↔ p ≠ [] ∧ ∃ ext, (((NewGeoHashTrie.Insert (str "te7")).Insert
          (str "tex")).Delete (str "te7")).1.Search (p ++ ext) = true) ∧
      L.length + 1 = nodeCount (((NewGeoHashTrie.Insert (str "te7")).Insert (str "tex")).Delete
        (str "te7")).1.root :=
  reachable_no_dangling _
    (Reachable.delete _ _ (Reachable.insert _ _ (Reachable.insert _ _ Reachable.new)))

/-- C18. The boolean returned by `Delete` is the root's deletable signal: in a
trie reachable from `NewGeoHashTrie()` by `Insert` and `Delete` calls,
`Delete(g)` returns true exactly when `g` is stored and is the only stored
geohash, and then the trie is empty after the call; deleting a stored geohash
while another one is stored returns false although `g` is no longer found. -/
theorem delete_returns_root_signal (t : GeoHashTrie) (g : List Byte) (hr : Reachable t) :
    ((t.Delete g).2 = true ↔ (t.Search g = true ∧ ∀ h, t.Search h = true → h = g)) ∧
    ((t.Delete g).2 = true → (t.Delete g).1 = NewGeoHashTrie) ∧
    (t.Search g = true → (∃ h, h ≠ g ∧ t.Search h = true) →
      (t.Delete g).2 = false ∧ (t.Delete g).1.Search g = false) := by
  have hn := noDangling_of_reachable t hr
  have hiff : (t.Delete g).2 = true ↔ (t.Search g = true ∧ ∀ h, t.Search h = true → h = g) := by
    constructor
    · intro h
      exact ⟨deleteHelper_flag_stored g t.root h, fun k hk => deleteHelper_flag_only g t.root h k hk⟩
    · rintro ⟨hs, honly⟩
      exact deleteHelper_only_stored g t.root hn hs honly
  refine ⟨hiff, ?_, ?_⟩
  · intro h
    simp only [GeoHashTrie.Delete, NewGeoHashTrie, deleteHelper_flag_empty g t.root h]
  · rintro _ ⟨h, hne, hh⟩
    constructor
    · by_contra hcon
      rw [Bool.not_eq_false] at hcon
      exact hne ((hiff.1 hcon).2 h hh)
    · simp [GeoHashTrie.Delete, GeoHashTrie.Search, searchFrom_deleteHelper]

set_option maxRecDepth 100000 in
theorem delete_returns_root_signal_witness :
    (((NewGeoHashTrie.Insert (str "te7")).Insert (str "tex")).Delete (str "te7")).2 = false ∧
      (((NewGeoHashTrie.Insert (str "te7")).Insert (str "tex")).Delete (str "te7")).1.Search
        (str "te7") = false ∧
      (((NewGeoHashTrie.Insert (str "te7")).Delete (str "te7")).2 = true) :=
  have h := delete_returns_root_signal ((NewGeoHashTrie.Insert (str "te7")).Insert (str "tex"))
    (str "te7") (Reachable.insert _ _ (Reachable.insert _ _ Reachable.new))
  have h2 := h.2.2 (by decide!) ⟨str "tex", by decide!, by decide!⟩
  ⟨h2.1, h2.2, by decide!⟩

set_option maxRecDepth 100000 in
/-- C13 fails on the code. For every prior state `loadDataInTrie` succeeds and
the new trie stores exactly the precision-15 geohashes of the batch, but the
name map keeps every key it had before. After loading a batch with only
"Center" at (19.0760, 72.8777) and then a batch with only "Far" at
(19.2000, 73.0000), the geohash `te7ud2evv2pu2jk` of "Center" is not stored in
the trie and is still mapped to "Center". -/
theorem load_keeps_old_names :
    (∀ (st : Globals) (jsonData : LocationData),
      ∃ st1 t1, loadDataInTrie st jsonData = some st1 ∧ st1.trie = some t1 ∧
        (∀ h, t1.Search h = true ↔
          ∃ place ∈ jsonData.PlaceData,
            EncodeGeoHash place.Latitude place.Longitude PRECISION = some h) ∧
        (∀ k, (st1.geohashAndPlaceMap k).isSome = true ↔
          ((st.geohashAndPlaceMap k).isSome = true ∨
            ∃ place ∈ jsonData.PlaceData,
              EncodeGeoHash place.Latitude place.Longitude PRECISION = some k))) ∧
    EncodeGeoHash (19076 / 1000) (728777 / 10000) PRECISION = some (str "te7ud2evv2pu2jk") ∧
    EncodeGeoHash (192 / 10) 73 PRECISION = some (str "te7vjpkbp73jpz6") ∧
    ((loadDataInTrie initGlobals
        ⟨19076 / 1000, 728777 / 10000, [⟨str "Center", 19076 / 1000, 728777 / 10000, 0⟩]⟩).bind
      fun st1 => (loadDataInTrie st1 ⟨192 / 10, 73, [⟨str "Far", 192 / 10, 73, 0⟩]⟩).map
        fun st2 => (st2.trie.map fun t => t.Search (str "te7ud2evv2pu2jk"),
          st2.geohashAndPlaceMap (str "te7ud2evv2pu2jk"))) =
      some (some false, some (str "Center")) := by
  refine ⟨?_, by decide!, by decide!, by decide!⟩
  intro st jsonData
  obtain ⟨t1, m1, hload, ht, hm⟩ :=
    loadPlaces_spec jsonData.PlaceData NewGeoHashTrie st.geohashAndPlaceMap
  refine ⟨_, t1, by rw [loadDataInTrie, hload, Option.map_some'], rfl, ?_, hm⟩
  intro h
  rw [ht]
  simp [GeoHashTrie.Search, NewGeoHashTrie, searchFrom_emptyNode]

/-- C15. `CalculateDistance` is symmetric in its two points, in exact
arithmetic over any field and for any `math` functions whose sine is odd. -/
theorem calculateDistance_symm {F : Type} [Field F] (math : Math F)
    (hsin : ∀ x, math.Sin (-x) = -math.Sin x) (lat1 lon1 lat2 lon2 : F) :
    CalculateDistance math lat1 lon1 lat2 lon2 = CalculateDistance math lat2 lon2 lat1 lon1 := by
  have e1 : (lat1 - lat2) * (math.Pi / 180) / 2 = -((lat2 - lat1) * (math.Pi / 180) / 2) := by
    ring
  have e2 : (lon1 - lon2) * (math.Pi / 180) / 2 = -((lon2 - lon1) * (math.Pi / 180) / 2) := by
    ring
  simp only [CalculateDistance, e1, e2, hsin]
  ring_nf

theorem calculateDistance_symm_witness :
    CalculateDistance
        (⟨Real.pi, Real.sin, Real.cos, Real.sqrt, fun y x => Complex.arg ⟨x, y⟩⟩ : Math ℝ)
        (19076 / 1000) (728777 / 10000) (192 / 10) 73 =
      CalculateDistance
        (⟨Real.pi, Real.sin, Real.cos, Real.sqrt, fun y x => Complex.arg ⟨x, y⟩⟩ : Math ℝ)
        (192 / 10) 73 (19076 / 1000) (728777 / 10000) :=
  calculateDistance_symm _ (fun x => Real.sin_neg x) _ _ _ _

set_option maxRecDepth 100000 in
/-- A key byte from `0x80` on is re-encoded by `current + string(ch)`: with the
one-byte key `0xE9` stored, `RangeQuery` with an empty common prefix returns
the two-byte string `0xC3 0xA9`. No geohash contains such a byte. -/
theorem rangeQuery_high_byte :
    (NewGeoHashTrie.Insert [0xE9]).Search [0xE9] = true ∧
      (NewGeoHashTrie.Insert [0xE9]).RangeQuery [] [] = [[0xC3, 0xA9]] ∧
      (NewGeoHashTrie.Insert [0xE9]).Search [0xC3, 0xA9] = false := by
  refine ⟨by decide!, by decide!, by decide!⟩

/-- C19. Exact characterisation of `RangeQuery`: on every trie obtained from
`NewGeoHashTrie()` by inserting geohashes and by deleting, and for all strings
`sw` and `ne`, the result contains each stored geohash that has the longest
common prefix of `sw` and `ne` as a prefix exactly once, and every returned
string is stored and starts with that common prefix. -/
theorem rangeQuery_exact (t : GeoHashTrie) (sw ne : List Byte) (ht : ReachableOnGeohashes t) :
    (∀ s, t.Search s = true → commonPrefix sw ne <+: s → (t.RangeQuery sw ne).countP (fun r => decide (r = s)) = 1) ∧
      ∀ r, r ∈ t.RangeQuery sw ne → t.Search r = true ∧ commonPrefix sw ne <+: r := by
  obtain ⟨hnd, hmem⟩ := rangeQuery_ascii t (asciiTrie_of_reachableOnGeohashes t ht) sw ne
  constructor
  · intro s hs hp
    exact List.count_eq_one_of_mem hnd ((hmem s).2 ⟨hs, hp⟩)
  · intro r hr
    exact (hmem r).1 hr

set_option maxRecDepth 100000 in
theorem rangeQuery_exact_witness :
    (∀ s, ((NewGeoHashTrie.Insert (str "te7ud2e")).Insert (str "tex")).Search s = true →
        commonPrefix (str "te7aa") (str "te7bb") <+: s →
        (((NewGeoHashTrie.Insert (str "te7ud2e")).Insert (str "tex")).RangeQuery
          (str "te7aa") (str "te7bb")).countP (fun r => decide (r = s)) = 1) ∧
      ∀ r, r ∈ ((NewGeoHashTrie.Insert (str "te7ud2e")).Insert (str "tex")).RangeQuery
          (str "te7aa") (str "te7bb") →
        ((NewGeoHashTrie.Insert (str "te7ud2e")).Insert (str "tex")).Search r = true ∧
          commonPrefix (str "te7aa") (str "te7bb") <+: r :=
  rangeQuery_exact _ (str "te7aa") (str "te7bb")
    (ReachableOnGeohashes.insert _ _ (by decide!)
      (ReachableOnGeohashes.insert _ _ (by decide!) ReachableOnGeohashes.new))

/-! ## The nearby scenario of the specification -/

set_option maxRecDepth 100000 in
/-- C16. The nearby scenario. After `loadDataInTrie` (from any earlier state and
for any central point of the batch) has loaded exactly "Center" at
(19.0760, 72.8777) and "Far" at (19.2000, 73.0000), with geohashes of
`PRECISION` 15 characters, the query of `FindNearByHandler` at the centre
(19.0760, 72.8777) (encode the centre, take the candidates of `FindNearby`,
decode each candidate, keep those whose `CalculateDistance` from the centre is
at most the radius) answers: for the radius 10 km exactly one location, named
"Center"; for the radius 30 km exactly the two locations named "Center" and
"Far", in some order. Floating-point numbers are read as exact real numbers and
the functions of Go's `math` package as `Real.pi`, `Real.sin`, `Real.cos`,
`Real.sqrt` and the argument of `x + y i` for `Atan2(y, x)`. -/
theorem nearby_scenario (prev : Globals) (lat lon : ℚ) :
    ∃ st,
      loadDataInTrie prev
          ⟨lat, lon, [⟨str "Center", 19076 / 1000, 728777 / 10000, 0⟩,
            ⟨str "Far", 192 / 10, 73, 0⟩]⟩ = some st ∧
      ∃ near far,
        FindNearByHandler
            (⟨Real.pi, Real.sin, Real.cos, Real.sqrt, fun y x => Complex.arg ⟨x, y⟩⟩ : Math ℝ)
            st (19076 / 1000) (728777 / 10000) 10 = some near ∧
          near.map (fun loc => loc.Name) = [str "Center"] ∧
          FindNearByHandler
            (⟨Real.pi, Real.sin, Real.cos, Real.sqrt, fun y x => Complex.arg ⟨x, y⟩⟩ : Math ℝ)
            st (19076 / 1000) (728777 / 10000) 30 = some far ∧
          (far.map (fun loc => loc.Name)).Perm [str "Center", str "Far"] :=
  ⟨_, scenario_load prev lat lon,
    scenario_response _ lat lon (scenario_names prev.geohashAndPlaceMap).1
      (scenario_names prev.geohashAndPlaceMap).2⟩

end GeoHash
